import Mathlib

/-
Verification of the sandboxed filesystem engine of FileManagerTauri
(src/src-tauri/src/commands/...), as a shallow embedding in Lean.

Conventions of the embedding:
* The build is the unix build: every cfg(windows) block is compiled out, so
  normalize_windows_path is the identity, is_reparse_point is constantly false,
  and the unix branch of every cfg split is the one translated.
* Rust paths are modelled by their std::path components: a raw input string is
  parsed into a list of Comp; a canonical absolute path is the list of its
  normal component names under the filesystem root.
* The on-disk state is modelled by a finite tree of nodes (file / symlink /
  directory).  Lookups in this tree never dereference the final symlink, which
  matches std::fs::symlink_metadata; std::fs::canonicalize, glob pattern
  compilation and the raw outcome of std::fs::rename live outside the
  repository, so they enter the model as oracles carried by the World record.
* Fallible Rust functions returning FsResult are translated to Except FsError;
  functions touching the disk additionally return the list of filesystem
  accesses they performed, so that claims of the form "rejected before any
  filesystem access" are statable.
-/

namespace FileManager

/-- Error kinds of commands/error.rs (FsError); the Io payload string is dropped. -/
inductive FsError where
  | pathNotAbsolute
  | invalidPath
  | invalidName
  | directoryTooDeep
  | ioErr
  | accessDenied
  | readDirectoryFailed
  | fileTooLarge
  | notFound
  | alreadyExists
  | internal
  | cancelled
  | invalidSymlink
deriving DecidableEq, Repr

/-- Unix path component, mirroring std::path::Component as used by the repo. -/
inductive Comp where
  | rootDir
  | curDir
  | parentDir
  | normal (s : String)
deriving DecidableEq, Repr

/-- Character test for the unix path separator. -/
def isSlash (c : Char) : Bool := c = Char.ofNat 47

/-- Split a character list at slashes (helper for rawSegments). -/
def splitOnSlashAux : List Char → List Char → List String
  | [], acc => [String.mk acc.reverse]
  | c :: rest, acc =>
    if isSlash c then String.mk acc.reverse :: splitOnSlashAux rest []
    else splitOnSlashAux rest (c :: acc)

/-- Slash-separated non-empty segments of a raw path string. -/
def rawSegments (s : String) : List String :=
  (splitOnSlashAux s.toList []).filter (fun seg => seg ≠ "")

/-- Turn one raw segment into a component (".." becomes parentDir). -/
def segToComp (seg : String) : Comp :=
  if seg = ".." then Comp.parentDir else Comp.normal seg

/-- Parse a path string into components with the unix rules of
    std::path::Path::components: repeated separators and non-leading "."
    segments are dropped; a leading slash yields rootDir. -/
def parsePath (s : String) : List Comp :=
  if (s.toList.head?.map isSlash).getD false then
    Comp.rootDir :: ((rawSegments s).filter (fun seg => seg ≠ ".")).map segToComp
  else
    match rawSegments s with
    | [] => []
    | seg :: rest =>
      (if seg = "." then [Comp.curDir] else [segToComp seg])
        ++ ((rest.filter (fun seg => seg ≠ ".")).map segToComp)

/-- Path::is_absolute on unix: the component list starts with the root. -/
def isAbsolutePath : List Comp → Bool
  | Comp.rootDir :: _ => true
  | _ => false

/-- Name carried by a normal component. -/
def compName : Comp → Option String
  | Comp.normal s => some s
  | _ => none

/-- Names under the root of an absolute, traversal-free component list. -/
def absNames (p : List Comp) : List String :=
  p.filterMap compName

/-- Display form of a canonical absolute path given by its names. -/
def absPathToString (names : List String) : String :=
  "/" ++ String.intercalate "/" names

mutual

/-- One filesystem object: a regular file (its text content as lines), a
    symlink (never dereferenced by the model, matching lstat semantics), or a
    directory with named children. -/
inductive Node where
  | file (lines : List String) : Node
  | symlink (target : String) : Node
  | dir (children : NodeList) : Node

/-- Children of a directory, in readdir order. -/
inductive NodeList where
  | nil : NodeList
  | cons (name : String) (node : Node) (rest : NodeList) : NodeList

end

/-- First child with the given name. -/
def NodeList.findName : NodeList → String → Option Node
  | NodeList.nil, _ => none
  | NodeList.cons n node rest, name =>
    if n = name then some node else NodeList.findName rest name

/-- Resolve a relative path in the tree without following symlinks: a symlink
    node is returned as itself when it is the final component and blocks
    descent otherwise (std::fs::symlink_metadata semantics for the final
    component). -/
def Node.lookup : Node → List String → Option Node
  | n, [] => some n
  | Node.dir cs, name :: rest =>
    match cs.findName name with
    | some c => c.lookup rest
    | none => none
  | _, _ :: _ => none

/-- Drop every child with the given name. -/
def NodeList.eraseName : NodeList → String → NodeList
  | NodeList.nil, _ => NodeList.nil
  | NodeList.cons n node tail, name =>
    if n = name then NodeList.eraseName tail name
    else NodeList.cons n node (NodeList.eraseName tail name)

mutual

/-- Remove the entry at the given non-empty relative path (with its whole
    subtree); identity when the path does not denote an entry. -/
def Node.removeAt : Node → List String → Node
  | Node.dir cs, [name] => Node.dir (cs.eraseName name)
  | Node.dir cs, name :: sub :: rest => Node.dir (NodeList.removeWithin cs name (sub :: rest))
  | n, _ => n

/-- Apply removeAt below every child carrying the given name. -/
def NodeList.removeWithin : NodeList → String → List String → NodeList
  | NodeList.nil, _, _ => NodeList.nil
  | NodeList.cons n node tail, name, path =>
    if n = name then NodeList.cons n (Node.removeAt node path) (NodeList.removeWithin tail name path)
    else NodeList.cons n node (NodeList.removeWithin tail name path)

end

/-- Replace the child with the given name, or append it. -/
def NodeList.setName : NodeList → String → Node → NodeList
  | NodeList.nil, name, newNode => NodeList.cons name newNode NodeList.nil
  | NodeList.cons n node tail, name, newNode =>
    if n = name then NodeList.cons n newNode tail
    else NodeList.cons n node (NodeList.setName tail name newNode)

mutual

/-- Install a node at the given non-empty relative path; none when some strict
    ancestor of the target is missing or is not a directory. -/
def Node.insertAt : Node → List String → Node → Option Node
  | Node.dir cs, [name], newNode => some (Node.dir (cs.setName name newNode))
  | Node.dir cs, name :: sub :: rest, newNode =>
    (NodeList.insertWithin cs name (sub :: rest) newNode).map Node.dir
  | _, _, _ => none

/-- Apply insertAt inside the child carrying the given name. -/
def NodeList.insertWithin : NodeList → String → List String → Node → Option NodeList
  | NodeList.nil, _, _, _ => none
  | NodeList.cons n node tail, name, path, newNode =>
    if n = name then (Node.insertAt node path newNode).map (fun node2 => NodeList.cons n node2 tail)
    else (NodeList.insertWithin tail name path newNode).map (NodeList.cons n node)

end

/-- Metadata test of validation.rs is_link_like: on unix is_reparse_point is
    constantly false, so link-like means exactly symlink. -/
def Node.isLinkLike : Node → Bool
  | Node.symlink _ => true
  | _ => false

/-- Metadata test meta.is_dir(). -/
def Node.isDirNode : Node → Bool
  | Node.dir _ => true
  | _ => false

/-- Metadata test meta.file_type().is_file(). -/
def Node.isFileNode : Node → Bool
  | Node.file _ => true
  | _ => false

/-- Byte length of a file modelled as newline-terminated lines
    (stands in for std::fs::Metadata::len). -/
def fileLen (lines : List String) : Nat :=
  (lines.map (fun l => l.length + 1)).sum

/-- Text lines of a file node (empty for non-files; only applied to files). -/
def Node.nodeLines : Node → List String
  | Node.file lines => lines
  | _ => []

/-- Outcome classification of std::fs::rename as inspected by
    move_entries_sync: success, failure with raw_os_error EXDEV, or any other
    failure. -/
inductive RenameError where
  | exdev
  | other
deriving DecidableEq, Repr

/-- A recorded access to the real filesystem, used to state that validation
    rejects certain inputs before touching the disk. -/
inductive Access where
  | canonicalizeAcc (p : List Comp)
  | lstatAcc (p : List Comp)
  | statAcc (p : List String)
  | createFileAcc (p : List String)
deriving DecidableEq, Repr

/-- Security configuration (commands/config.rs SecurityConfig): allowed roots
    are stored as canonical absolute paths, denied patterns as raw glob
    strings. -/
structure SecurityConfig where
  allowedRoots : List (List String)
  deniedPatterns : List String

/-- The world an operation runs against: the filesystem tree plus the
    behaviour of the pieces that live outside this repository —
    std::fs::canonicalize (symlink resolution), glob::Pattern::new (an invalid
    pattern yields none, a valid one yields the predicate its matcher
    denotes), and the error classification of std::fs::rename. -/
structure World where
  root : Node
  canon : List Comp → Option (List String)
  globCompile : String → Option (String → Bool)
  renameErr : List String → List String → Option RenameError

/-- validation.rs normalize_windows_path: on the unix build the windows
    extended-prefix stripping is compiled out, so this is the identity. -/
def normalize_windows_path (p : List String) : List String := p

/-- validation.rs has_traversal_components (lines 85-87). -/
def has_traversal_components (p : List Comp) : Bool :=
  p.any (fun c => match c with | Comp.parentDir => true | _ => false)

/-- Core of validation.rs validate_path (lines 17-36), on already-parsed
    components: absolute check, traversal pre-check, then canonicalization
    (the only filesystem access), then the count check and windows
    normalization.  Returns the result together with the accesses made. -/
def validate_path_comps (w : World) (path_buf : List Comp) :
    Except FsError (List String) × List Access :=
  if !isAbsolutePath path_buf then (Except.error FsError.pathNotAbsolute, [])
  else if has_traversal_components path_buf then (Except.error FsError.invalidPath, [])
  else
    match w.canon path_buf with
    | none => (Except.error FsError.invalidPath, [Access.canonicalizeAcc path_buf])
    | some canonical =>
      -- canonical.components().count() < 1: an absolute path has the root
      -- component, so the count is canonical.length + 1
      if canonical.length + 1 < 1 then
        (Except.error FsError.invalidPath, [Access.canonicalizeAcc path_buf])
      else
        (Except.ok (normalize_windows_path canonical), [Access.canonicalizeAcc path_buf])

/-- validation.rs validate_path on a raw string. -/
def validate_path (w : World) (path : String) : Except FsError (List String) × List Access :=
  validate_path_comps w (parsePath path)

/-- Core of validation.rs validate_path_no_follow (lines 41-57): absolute
    check, traversal pre-check, then one lstat (symlink_metadata) that must
    succeed; the path itself (not a canonical form) is returned. -/
def validate_path_no_follow_comps (w : World) (path_buf : List Comp) :
    Except FsError (List String) × List Access :=
  if !isAbsolutePath path_buf then (Except.error FsError.pathNotAbsolute, [])
  else if has_traversal_components path_buf then (Except.error FsError.invalidPath, [])
  else
    match w.root.lookup (absNames path_buf) with
    | none => (Except.error FsError.invalidPath, [Access.lstatAcc path_buf])
    | some _ =>
      (Except.ok (normalize_windows_path (absNames path_buf)), [Access.lstatAcc path_buf])

/-- validation.rs validate_path_no_follow on a raw string. -/
def validate_path_no_follow (w : World) (path : String) :
    Except FsError (List String) × List Access :=
  validate_path_no_follow_comps w (parsePath path)

/-- validation.rs check_sandbox (lines 90-124): the canonical path must start
    with some allowed root and match none of the denied patterns; a pattern
    that fails to compile is skipped. -/
def check_sandbox (w : World) (path : List String) (config : SecurityConfig) :
    Except FsError Unit :=
  let normalized_path := normalize_windows_path path
  let in_allowed := config.allowedRoots.any
    (fun root => (normalize_windows_path root).isPrefixOf normalized_path)
  if !in_allowed then Except.error FsError.accessDenied
  else
    let path_str := absPathToString normalized_path
    if config.deniedPatterns.any (fun pattern =>
        match w.globCompile pattern with
        | some pat => pat path_str
        | none => false) then
      Except.error FsError.accessDenied
    else
      Except.ok ()

/-- validation.rs validate_sandboxed (lines 60-64). -/
def validate_sandboxed (w : World) (path : String) (config : SecurityConfig) :
    Except FsError (List String) × List Access :=
  match validate_path w path with
  | (Except.error e, log) => (Except.error e, log)
  | (Except.ok canonical, log) =>
    match check_sandbox w canonical config with
    | Except.error e => (Except.error e, log)
    | Except.ok _ => (Except.ok canonical, log)

/-- validation.rs validate_sandboxed_no_follow (lines 67-71). -/
def validate_sandboxed_no_follow (w : World) (path : String) (config : SecurityConfig) :
    Except FsError (List String) × List Access :=
  match validate_path_no_follow w path with
  | (Except.error e, log) => (Except.error e, log)
  | (Except.ok path_buf, log) =>
    match check_sandbox w path_buf config with
    | Except.error e => (Except.error e, log)
    | Except.ok _ => (Except.ok path_buf, log)

/-- validation.rs validate_paths_sandboxed (lines 74-82): validate each path
    in order with validate_sandboxed_no_follow, stopping at the first error
    (Iterator::collect into FsResult). -/
def validate_paths_sandboxed (w : World) (paths : List String) (config : SecurityConfig) :
    Except FsError (List (List String)) × List Access :=
  match paths with
  | [] => (Except.ok [], [])
  | p :: rest =>
    match validate_sandboxed_no_follow w p config with
    | (Except.error e, log) => (Except.error e, log)
    | (Except.ok v, log) =>
      match validate_paths_sandboxed w rest config with
      | (Except.error e, log2) => (Except.error e, log ++ log2)
      | (Except.ok vs, log2) => (Except.ok (v :: vs), log ++ log2)

/-- validation.rs validate_filename (lines 127-154), unix build: the
    cfg(windows) reserved-name checks are compiled out. -/
def validate_filename (name : String) : Except FsError Unit :=
  if name = "" then Except.error FsError.invalidName
  else if name = "." ∨ name = ".." then Except.error FsError.invalidName
  else if name.toList.any (fun c => c == Char.ofNat 47 || c == Char.ofNat 92) then
    Except.error FsError.invalidName
  else if name.toList.any (fun c => c == Char.ofNat 0) then Except.error FsError.invalidName
  else Except.ok ()

/-- std::path::Path::parent: drop the last component; none for the empty path
    and for the bare root. -/
def pathParent : List Comp → Option (List Comp)
  | [] => none
  | [Comp.rootDir] => none
  | cs => some cs.dropLast

/-- std::path::Path::file_name: the final component when it is a normal one. -/
def pathFileName (cs : List Comp) : Option String :=
  match cs.getLast? with
  | some c => compName c
  | none => none

/-- fs/write.rs validate_parent_path (lines 101-133): canonicalizing
    validation first, falling back to no-follow validation plus existence and
    directory checks when it fails.  The source converts the parent to a
    string and re-parses it; components are passed through directly here. -/
def validate_parent_path (w : World) (parent : List Comp) :
    Except FsError (List String) × List Access :=
  match validate_path_comps w parent with
  | (Except.ok v, log) => (Except.ok v, log)
  | (Except.error _, log) =>
    match validate_path_no_follow_comps w parent with
    | (Except.error e2, log2) => (Except.error e2, log ++ log2)
    | (Except.ok validated, log2) =>
      match w.root.lookup validated with
      | none => (Except.error FsError.notFound, log ++ log2 ++ [Access.statAcc validated])
      | some n =>
        if !n.isDirNode then
          (Except.error FsError.invalidPath, log ++ log2 ++ [Access.statAcc validated])
        else
          (Except.ok validated, log ++ log2 ++ [Access.statAcc validated])

/-- fs/write.rs create_file_sync (lines 58-96): filename validation, parent
    validation via validate_parent_path, existence check, then File::create.
    Note that this function receives no SecurityConfig: no sandbox check is
    made anywhere on this path.  Returns the result, the new tree and the
    accesses performed. -/
def create_file_sync (w : World) (path : String) :
    Except FsError Unit × Node × List Access :=
  if path = "" then (Except.error FsError.invalidPath, w.root, [])
  else
    let p := parsePath path
    match pathParent p with
    | none => (Except.error FsError.invalidPath, w.root, [])
    | some parent =>
      match pathFileName p with
      | none => (Except.error FsError.invalidName, w.root, [])
      | some name =>
        match validate_filename name with
        | Except.error e => (Except.error e, w.root, [])
        | Except.ok _ =>
          match validate_parent_path w parent with
          | (Except.error e, log) => (Except.error e, w.root, log)
          | (Except.ok validated_parent, log) =>
            let new_path := validated_parent ++ [name]
            match w.root.lookup new_path with
            | some _ =>
              (Except.error FsError.alreadyExists, w.root, log ++ [Access.statAcc new_path])
            | none =>
              match w.root.insertAt new_path (Node.file []) with
              | some root2 =>
                (Except.ok (), root2,
                  log ++ [Access.statAcc new_path, Access.createFileAcc new_path])
              | none =>
                (Except.error FsError.ioErr, w.root,
                  log ++ [Access.statAcc new_path, Access.createFileAcc new_path])

mutual

/-- fs/delete.rs remove_dir_safe (lines 99-128), translated on the subtree
    value: native recursion into child directories with no depth parameter
    and no work queue; links are removed without following, files and (after
    their contents) directories are removed.  In the tree model removal of
    the subtree is performed by the caller, so only the traversal and its
    result are computed here. -/
def remove_dir_safe : Node → Except FsError Unit
  | Node.dir cs => remove_children cs
  | _ => Except.error FsError.ioErr

/-- Per-entry body of the remove_dir_safe read_dir loop. -/
def remove_children : NodeList → Except FsError Unit
  | NodeList.nil => Except.ok ()
  | NodeList.cons _ child rest =>
    match (if child.isLinkLike then Except.ok ()
           else if child.isDirNode then remove_dir_safe child
           else Except.ok ()) with
    | Except.error e => Except.error e
    | Except.ok _ => remove_children rest

end

/-- fs/delete.rs delete_permanent (lines 60-96), unix build: is_reparse_point
    is constantly false so that branch is dead; a symlink is removed itself
    (fs::remove_file on the link), a directory goes through remove_dir_safe,
    anything else is removed as a file. -/
def delete_permanent (root : Node) (path : List String) : Except FsError Node :=
  match root.lookup path with
  | none => Except.error FsError.ioErr
  | some meta =>
    if meta.isLinkLike then Except.ok (root.removeAt path)
    else if meta.isDirNode then
      match remove_dir_safe meta with
      | Except.error e => Except.error e
      | Except.ok _ => Except.ok (root.removeAt path)
    else Except.ok (root.removeAt path)

/-- Loop body of fs/delete.rs delete_entries_sync (lines 36-55): an entry
    that can neither be stat-ed nor lstat-ed is skipped; permanent deletion
    goes through delete_permanent, otherwise trash::delete (modelled as
    removal from the tree). -/
def delete_entries_body (root : Node) (paths : List (List String)) (permanent : Bool) :
    Except FsError Node :=
  match paths with
  | [] => Except.ok root
  | p :: rest =>
    match root.lookup p with
    | none => delete_entries_body root rest permanent
    | some _ =>
      if permanent then
        match delete_permanent root p with
        | Except.error e => Except.error e
        | Except.ok root2 => delete_entries_body root2 rest permanent
      else
        delete_entries_body (root.removeAt p) rest permanent

/-- fs/delete.rs delete_entries_sync (lines 29-58): sandbox validation of all
    paths (no-follow), then the deletion loop. -/
def delete_entries_sync (w : World) (paths : List String) (permanent : Bool)
    (config : SecurityConfig) : Except FsError Node :=
  match (validate_paths_sandboxed w paths config).1 with
  | Except.error e => Except.error e
  | Except.ok validated => delete_entries_body w.root validated permanent

/-- commands/config.rs limits::MAX_DIRECTORY_DEPTH. -/
def MAX_DIRECTORY_DEPTH : Nat := 100

/-- A write performed on the destination side of a copy: directory creation
    (fs::create_dir_all) or a file copy (fs::copy) with the copied content. -/
inductive WriteOp where
  | mkDir (p : List String)
  | copyFile (p : List String) (lines : List String)
deriving DecidableEq, Repr

/-- Destination path of a write. -/
def WriteOp.target : WriteOp → List String
  | WriteOp.mkDir p => p
  | WriteOp.copyFile p _ => p

mutual

/-- Number of nodes in a subtree (termination measure for the copy queue). -/
def Node.size : Node → Nat
  | Node.file _ => 1
  | Node.symlink _ => 1
  | Node.dir cs => 1 + cs.sizeList

/-- Total size of a list of children. -/
def NodeList.sizeList : NodeList → Nat
  | NodeList.nil => 0
  | NodeList.cons _ child rest => child.size + rest.sizeList

end

/-- Total size of the sources still on the copy work queue. -/
def queueSize : List (Node × List String × Nat) → Nat
  | [] => 0
  | (n, _, _) :: rest => n.size + queueSize rest

/-- Body of the read_dir loop of copy_dir_iterative (fs/copy_move.rs lines
    270-288): per child, fetch link-level metadata, skip link-like entries,
    push subdirectories (with depth + 1) and copy regular files immediately.
    Returns the file writes and the queue entries, both in readdir order. -/
def copyChildren : NodeList → List String → Nat →
    List WriteOp × List (Node × List String × Nat)
  | NodeList.nil, _, _ => ([], [])
  | NodeList.cons name child rest, dst, depth =>
    let tailRes := copyChildren rest dst depth
    if child.isLinkLike then tailRes
    else if child.isDirNode then
      (tailRes.1, (child, dst ++ [name], depth + 1) :: tailRes.2)
    else
      (WriteOp.copyFile (dst ++ [name]) child.nodeLines :: tailRes.1, tailRes.2)

theorem queueSize_append (a b : List (Node × List String × Nat)) :
    queueSize (a ++ b) = queueSize a + queueSize b := by
  induction a with
  | nil => simp [queueSize]
  | cons hd tl ih =>
    obtain ⟨n, d, k⟩ := hd
    simp [queueSize, ih, Nat.add_assoc]

theorem node_size_pos : (n : Node) → 1 ≤ n.size
  | Node.file _ => le_refl _
  | Node.symlink _ => le_refl _
  | Node.dir _ => by simp [Node.size]

theorem copyChildren_queueSize_le :
    (cs : NodeList) → (dst : List String) → (depth : Nat) →
    queueSize (copyChildren cs dst depth).2 ≤ cs.sizeList
  | NodeList.nil, dst, depth => by
    simp [copyChildren, queueSize, NodeList.sizeList]
  | NodeList.cons name child rest, dst, depth => by
    have ih := copyChildren_queueSize_le rest dst depth
    have hpos := node_size_pos child
    simp only [copyChildren, NodeList.sizeList]
    by_cases h1 : child.isLinkLike <;> by_cases h2 : child.isDirNode <;>
      simp only [h1, h2, Bool.false_eq_true, if_true, if_false, queueSize] <;> omega

/-- The work-queue loop of fs/copy_move.rs copy_dir_iterative (lines 259-292):
    pop a (source, destination, depth) triple, fail with DirectoryTooDeep past
    the limit, create the destination directory, then process the children.
    Reads are made against the starting snapshot of the source subtree;
    writes are accumulated in order. -/
def copyLoop : List (Node × List String × Nat) → List WriteOp → Except FsError (List WriteOp)
  | [], acc => Except.ok acc
  | (n, dst, depth) :: rest, acc =>
    if depth > MAX_DIRECTORY_DEPTH then Except.error FsError.directoryTooDeep
    else
      match n with
      | Node.dir cs =>
        let cres := copyChildren cs dst depth
        copyLoop (rest ++ cres.2) (acc ++ (WriteOp.mkDir dst :: cres.1))
      | _ => Except.error FsError.ioErr
termination_by q _ => queueSize q
decreasing_by
  rename_i cs
  simp only [queueSize, queueSize_append, Node.size]
  have h := copyChildren_queueSize_le cs dst depth
  omega

/-- fs/copy_move.rs copy_dir_iterative (lines 259-292). -/
def copy_dir_iterative (src : Node) (dst : List String) : Except FsError (List WriteOp) :=
  copyLoop [(src, dst, 0)] []

/-- fs/copy_move.rs copy_single_entry (lines 238-256): skip link-like
    sources, copy directories iteratively and files directly. -/
def copy_single_entry (root : Node) (src dest : List String) :
    Except FsError (List WriteOp) :=
  match src.getLast? with
  | none => Except.error FsError.invalidPath
  | some name =>
    let target := dest ++ [name]
    match root.lookup src with
    | none => Except.error FsError.ioErr
    | some meta =>
      if meta.isLinkLike then Except.ok []
      else if meta.isDirNode then copy_dir_iterative meta target
      else Except.ok [WriteOp.copyFile target meta.nodeLines]

/-- Loop body of fs/copy_move.rs copy_entries_sync (lines 49-73): per source,
    link-level metadata, skip link-like entries, copy directories through the
    queue, skip a file copied onto itself, copy other files directly. -/
def copy_entries_body (root : Node) (srcs : List (List String)) (dest : List String) :
    Except FsError (List WriteOp) :=
  match srcs with
  | [] => Except.ok []
  | src :: rest =>
    match src.getLast? with
    | none => Except.error FsError.invalidPath
    | some name =>
      let target := dest ++ [name]
      match root.lookup src with
      | none => Except.error FsError.ioErr
      | some meta =>
        if meta.isLinkLike then copy_entries_body root rest dest
        else
          match (if meta.isDirNode then copy_dir_iterative meta target
                 else if src = target then Except.ok []
                 else Except.ok [WriteOp.copyFile target meta.nodeLines]) with
          | Except.error e => Except.error e
          | Except.ok ws =>
            match copy_entries_body root rest dest with
            | Except.error e => Except.error e
            | Except.ok ws2 => Except.ok (ws ++ ws2)

/-- fs/copy_move.rs copy_entries_sync (lines 33-76): validate sources
    (no-follow) and destination against the sandbox, require the destination
    to be an existing directory, then run the copy loop. -/
def copy_entries_sync (w : World) (sources : List String) (destination : String)
    (config : SecurityConfig) : Except FsError (List WriteOp) :=
  match (validate_paths_sandboxed w sources config).1 with
  | Except.error e => Except.error e
  | Except.ok validated_sources =>
    match (validate_sandboxed w destination config).1 with
    | Except.error e => Except.error e
    | Except.ok dest_path =>
      match w.root.lookup dest_path with
      | none => Except.error FsError.notFound
      | some d =>
        if !d.isDirNode then Except.error FsError.invalidPath
        else copy_entries_body w.root validated_sources dest_path

/-- std::fs::rename modelled on the tree: move the subtree at src to target
    (the oracle has already ruled that the rename itself succeeds). -/
def renameSubtree (root : Node) (src target : List String) : Except FsError Node :=
  match root.lookup src with
  | none => Except.error FsError.ioErr
  | some n =>
    match (root.removeAt src).insertAt target n with
    | some root2 => Except.ok root2
    | none => Except.error FsError.ioErr

/-- std::fs::remove_dir_all modelled on the tree: removes a directory with
    its contents and fails on anything that is not a directory. -/
def remove_dir_all (root : Node) (path : List String) : Except FsError Node :=
  match root.lookup path with
  | some (Node.dir _) => Except.ok (root.removeAt path)
  | some _ => Except.error FsError.ioErr
  | none => Except.error FsError.ioErr

/-- Replay one destination write on the tree (ignoring a write whose parent
    directory is missing, as the writes of a copy create parents first). -/
def applyWrite (root : Node) : WriteOp → Node
  | WriteOp.mkDir p =>
    match root.lookup p with
    | some _ => root
    | none => ((root.insertAt p (Node.dir NodeList.nil)).getD root)
  | WriteOp.copyFile p lines => ((root.insertAt p (Node.file lines)).getD root)

/-- Replay a list of destination writes in order. -/
def applyWrites (root : Node) : List WriteOp → Node
  | [] => root
  | wop :: rest => applyWrites (applyWrite root wop) rest

/-- Loop body of fs/copy_move.rs move_entries_sync (lines 183-233), unix
    build: skip when source equals target, skip silently when the target
    already exists, try fs::rename, and on EXDEV fall back to
    copy_single_entry followed by fs::remove_dir_all of the source (the
    cfg(windows) branch is compiled out); any other rename error aborts.
    Returns the result, the new tree and the fallback copy writes. -/
def move_one (root : Node) (renameErr : List String → List String → Option RenameError)
    (src dest : List String) : Except FsError Unit × Node × List WriteOp :=
  match src.getLast? with
  | none => (Except.error FsError.invalidPath, root, [])
  | some name =>
    let target := dest ++ [name]
    if src = target then (Except.ok (), root, [])
    else
      match root.lookup target with
      | some _ => (Except.ok (), root, [])
      | none =>
        match renameErr src target with
        | none =>
          match renameSubtree root src target with
          | Except.ok root2 => (Except.ok (), root2, [])
          | Except.error e => (Except.error e, root, [])
        | some RenameError.exdev =>
          match copy_single_entry root src dest with
          | Except.error e => (Except.error e, root, [])
          | Except.ok ws =>
            let root2 := applyWrites root ws
            match remove_dir_all root2 src with
            | Except.ok root3 => (Except.ok (), root3, ws)
            | Except.error e => (Except.error e, root2, ws)
        | some RenameError.other => (Except.error FsError.ioErr, root, [])

/-- The source loop of move_entries_sync over the validated sources. -/
def move_entries_body (root : Node)
    (renameErr : List String → List String → Option RenameError)
    (srcs : List (List String)) (dest : List String) :
    Except FsError Unit × Node × List WriteOp :=
  match srcs with
  | [] => (Except.ok (), root, [])
  | src :: rest =>
    match move_one root renameErr src dest with
    | (Except.error e, root2, ws) => (Except.error e, root2, ws)
    | (Except.ok _, root2, ws) =>
      match move_entries_body root2 renameErr rest dest with
      | (r, root3, ws2) => (r, root3, ws ++ ws2)

/-- fs/copy_move.rs move_entries_sync (lines 167-236): validate sources
    (no-follow) and destination against the sandbox, require the destination
    to be an existing directory, then move each source. -/
def move_entries_sync (w : World) (sources : List String) (destination : String)
    (config : SecurityConfig) : Except FsError Unit × Node × List WriteOp :=
  match (validate_paths_sandboxed w sources config).1 with
  | Except.error e => (Except.error e, w.root, [])
  | Except.ok validated_sources =>
    match (validate_sandboxed w destination config).1 with
    | Except.error e => (Except.error e, w.root, [])
    | Except.ok dest_path =>
      match w.root.lookup dest_path with
      | none => (Except.error FsError.notFound, w.root, [])
      | some d =>
        if !d.isDirNode then (Except.error FsError.invalidPath, w.root, [])
        else move_entries_body w.root w.renameErr validated_sources dest_path

/-- Emission rule of fs/copy_move.rs copy_entries_parallel (line 130): a task
    that observes counter value current emits a progress event exactly when
    current equals the total or current is a multiple of 5. -/
def shouldEmitProgress (current total : Nat) : Bool :=
  current == total || current % 5 == 0

/-- Counter values observed by the tasks of copy_entries_parallel across a
    run on total sources, in completion order: the shared atomic counter
    (fetch_add(1) + 1) hands out exactly 1, 2, ..., total. -/
def progressIncrements (total : Nat) : List Nat :=
  (List.range total).map (fun i => i + 1)

/-- Current values of the progress events emitted during the run, in counter
    order (the emit follows the fetch_add of the same task; reordering of the
    event transport between those two steps is not modelled). -/
def emittedProgress (total : Nat) : List Nat :=
  (progressIncrements total).filter (fun current => shouldEmitProgress current total)

/-- commands/search.rs SearchOptions (max_results and file_extensions are
    optional; u32 is modelled as Nat). -/
structure SearchOptions where
  query : String
  searchPath : String
  searchContent : Bool
  caseSensitive : Bool
  maxResults : Option Nat
  fileExtensions : Option (List String)

/-- commands/search.rs ContentMatch (indices are character positions). -/
structure ContentMatch where
  lineNumber : Nat
  lineContent : String
  matchStart : Nat
  matchEnd : Nat
deriving DecidableEq, Repr

/-- commands/search.rs SearchResult (the matches field is renamed because
    matches is a reserved word in Lean). -/
structure SearchResult where
  path : String
  name : String
  isDir : Bool
  foundMatches : List ContentMatch
deriving DecidableEq, Repr

/-- Position of the first occurrence of needle inside hay (str::find). -/
def findSub (needle : List Char) : List Char → Option Nat
  | [] => if needle.isPrefixOf ([] : List Char) then some 0 else none
  | c :: rest =>
    if needle.isPrefixOf (c :: rest) then some 0
    else (findSub needle rest).map (fun i => i + 1)

/-- str::find on strings (byte positions modelled as character positions). -/
def strFind (hay needle : String) : Option Nat :=
  findSub needle.toList hay.toList

/-- str::contains on strings. -/
def strContainsSub (hay needle : String) : Bool :=
  (strFind hay needle).isSome

/-- str::to_lowercase (simple per-character lowering; the repo only compares
    ascii names and queries). -/
def strToLower (s : String) : String :=
  String.mk (s.toList.map Char.toLower)

/-- Split a file name around its last dot (helper for Path::extension). -/
def lastDotSplit : List Char → Option (List Char × List Char)
  | [] => none
  | c :: rest =>
    match lastDotSplit rest with
    | some (b, a) => some (c :: b, a)
    | none => if c = Char.ofNat 46 then some ([], rest) else none

/-- std::path::Path::extension on a file name: the part after the last dot,
    none when there is no dot or the name starts with its only dot. -/
def nameExtension (name : String) : Option String :=
  match lastDotSplit name.toList with
  | some (before, after) => if before = [] then none else some (String.mk after)
  | none => none

/-- commands/config.rs limits::MAX_SEARCH_FILE_SIZE (4 MB). -/
def MAX_SEARCH_FILE_SIZE : Nat := 4 * 1024 * 1024

/-- search.rs max_depth (line 156). -/
def DEFAULT_SEARCH_DEPTH : Nat := 10

/-- search.rs MAX_WALK_ENTRIES (line 158). -/
def MAX_WALK_ENTRIES : Nat := 200000

/-- One entry yielded by the WalkDir traversal. -/
structure WalkEntry where
  epath : List String
  node : Node

/-- The line scan of process_search_entry (search.rs lines 237-269): per
    line, search the (optionally lowercased) line for the needle, record a
    match with 1-based line number and match bounds, and stop after the tenth
    recorded match. -/
def scanLines (caseSensitive : Bool) (query queryLower : String) :
    List String → Nat → Nat → List ContentMatch
  | [], _, _ => []
  | line :: rest, lineNum, found =>
    let haystack := if caseSensitive then line else strToLower line
    let needle := if caseSensitive then query else queryLower
    match strFind haystack needle with
    | some start =>
      let m : ContentMatch :=
        { lineNumber := lineNum + 1, lineContent := line,
          matchStart := start, matchEnd := start + needle.length }
      if 10 ≤ found + 1 then [m]
      else m :: scanLines caseSensitive query queryLower rest (lineNum + 1) (found + 1)
    | none => scanLines caseSensitive query queryLower rest (lineNum + 1) found

/-- search.rs process_search_entry (lines 194-282): extension filter
    (directories bypass it), filename containment test, then the optional
    content scan guarded by the 4 MB ceiling. -/
def process_search_entry (opts : SearchOptions) (entry : WalkEntry) : Option SearchResult :=
  let queryLower := strToLower opts.query
  let name := (entry.epath.getLast?).getD ""
  let extFilterPass :=
    match opts.fileExtensions with
    | none => true
    | some extensions =>
      match nameExtension name with
      | some ext => extensions.any (fun e => strToLower e = strToLower ext)
      | none => entry.node.isDirNode
  if !extFilterPass then none
  else
    let nameMatches :=
      if opts.caseSensitive then strContainsSub name opts.query
      else strContainsSub (strToLower name) queryLower
    if opts.searchContent && entry.node.isFileNode
        && decide (MAX_SEARCH_FILE_SIZE < fileLen entry.node.nodeLines) then
      none
    else
      let contentMatches :=
        if opts.searchContent && entry.node.isFileNode then
          scanLines opts.caseSensitive opts.query queryLower entry.node.nodeLines 0 0
        else []
      if nameMatches || !contentMatches.isEmpty then
        some { path := absPathToString entry.epath, name := name,
               isDir := entry.node.isDirNode, foundMatches := contentMatches }
      else none

mutual

/-- WalkDir traversal with follow_links(false): yield the entry itself, then
    descend into directory children while the depth cap allows. -/
def walkNode (n : Node) (path : List String) (depth maxDepth : Nat) : List WalkEntry :=
  { epath := path, node := n } ::
    (if depth < maxDepth then
      match n with
      | Node.dir cs => walkChildren cs path depth maxDepth
      | _ => []
     else [])

/-- Walk the children of a directory in readdir order. -/
def walkChildren : NodeList → List String → Nat → Nat → List WalkEntry
  | NodeList.nil, _, _, _ => []
  | NodeList.cons name child rest, path, depth, maxDepth =>
    walkNode child (path ++ [name]) (depth + 1) maxDepth
      ++ walkChildren rest path depth maxDepth

end

/-- Sequential rendering of the parallel filter_map with the shared stop
    flag (search.rs lines 171-188): once the found counter reaches the
    maximum the flag stops further results. -/
def collectResults (opts : SearchOptions) (maxResults : Nat) :
    List WalkEntry → Nat → List SearchResult
  | [], _ => []
  | e :: rest, found =>
    if maxResults ≤ found then []
    else
      match process_search_entry opts e with
      | some r =>
        if maxResults ≤ found + 1 then [r]
        else r :: collectResults opts maxResults rest (found + 1)
      | none => collectResults opts maxResults rest found

/-- file_ops.rs validate_path, the variant imported by search.rs (lines
    109-132): absolute check then canonicalize; unlike validation.rs
    validate_path it has no parent-component pre-check. -/
def validate_path_file_ops (w : World) (path : String) : Except FsError (List String) :=
  let path_buf := parsePath path
  if !isAbsolutePath path_buf then Except.error FsError.pathNotAbsolute
  else
    match w.canon path_buf with
    | none => Except.error FsError.invalidPath
    | some canonical =>
      if canonical.length + 1 < 1 then Except.error FsError.invalidPath
      else Except.ok canonical

/-- search.rs search_files_sync (lines 152-191): validate the root (note: no
    SecurityConfig is consulted anywhere on this path), walk with depth cap
    10 and the 200000-entry cap, filter with process_search_entry under the
    stop flag, and truncate the collected results to max_results. -/
def search_files_sync (w : World) (opts : SearchOptions) :
    Except FsError (List SearchResult) :=
  match validate_path_file_ops w opts.searchPath with
  | Except.error e => Except.error e
  | Except.ok search_path =>
    let maxResults := opts.maxResults.getD 500
    let entries :=
      (match w.root.lookup search_path with
       | some n => walkNode n search_path 0 DEFAULT_SEARCH_DEPTH
       | none => []).take MAX_WALK_ENTRIES
    let collected := collectResults opts maxResults entries 0
    Except.ok (collected.take maxResults)

/-- Child names of a directory, in order. -/
def NodeList.names : NodeList → List String
  | NodeList.nil => []
  | NodeList.cons n _ rest => n :: rest.names

mutual

/-- Wellformedness of a tree: sibling names are distinct at every level (true
    of any real directory tree, where a name occurs at most once). -/
def Node.wf : Node → Bool
  | Node.file _ => true
  | Node.symlink _ => true
  | Node.dir cs => decide cs.names.Nodup && cs.allWf

/-- All children wellformed. -/
def NodeList.allWf : NodeList → Bool
  | NodeList.nil => true
  | NodeList.cons _ child rest => child.wf && rest.allWf

end

/-- Chain of nested directories of the given height (test tree for the depth
    bound). -/
def mkChain : Nat → Node
  | 0 => Node.dir NodeList.nil
  | k + 1 => Node.dir (NodeList.cons "d" (mkChain k) NodeList.nil)

/-- Provenance of one destination write of a copy rooted at src: the write
    lands at the destination root plus a relative path that denotes, in the
    source subtree and without crossing any symlink, a directory (for mkDir)
    or a file with exactly the copied content (for copyFile). -/
def WriteFromSource (src : Node) (dstRoot : List String) : WriteOp → Prop
  | WriteOp.mkDir p => ∃ rel cs, p = dstRoot ++ rel ∧ src.lookup rel = some (Node.dir cs)
  | WriteOp.copyFile p lines => ∃ rel, p = dstRoot ++ rel ∧ src.lookup rel = some (Node.file lines)

/-- Invariant of the copy work queue: every pending entry is a wellformed
    directory of the source subtree, headed for the matching relative
    destination. -/
def QueueOk (src : Node) (dstRoot : List String) (q : List (Node × List String × Nat)) : Prop :=
  ∀ e ∈ q, ∃ rel cs, e.1 = Node.dir cs ∧ e.2.1 = dstRoot ++ rel ∧
    src.lookup rel = some (Node.dir cs) ∧ (Node.dir cs).wf = true

/-- A world whose oracles all fail: enough for claims that never reach them. -/
def trivialWorld : World :=
  { root := Node.dir NodeList.nil,
    canon := fun _ => none,
    globCompile := fun _ => none,
    renameErr := fun _ _ => none }

/-- C3: for every input path string containing a parent-directory component —
    including paths that do not exist on disk, since the world is arbitrary —
    both validation modes fail with an empty access log (no canonicalize, no
    lstat: nothing touched the disk), and when the path is absolute the error
    is InvalidPath from the traversal pre-check, not a non-existence error. -/
theorem c3_traversal_rejected_before_disk (w : World) (path : String)
    (h : has_traversal_components (parsePath path) = true) :
    (∃ e1, validate_path w path = (Except.error e1, [])) ∧
    (∃ e2, validate_path_no_follow w path = (Except.error e2, [])) ∧
    (isAbsolutePath (parsePath path) = true →
      validate_path w path = (Except.error FsError.invalidPath, []) ∧
      validate_path_no_follow w path = (Except.error FsError.invalidPath, [])) := by
  unfold validate_path validate_path_no_follow validate_path_comps validate_path_no_follow_comps
  cases habs : isAbsolutePath (parsePath path) with
  | false => simp [habs]
  | true => simp [habs, h]

/-- C3 witness: the path /tmp/../etc/passwd (which does not exist in the
    trivial world) is rejected by both modes without any filesystem access,
    with InvalidPath. -/
theorem c3_witness :
    has_traversal_components (parsePath "/tmp/../etc/passwd") = true ∧
    ((∃ e1, validate_path trivialWorld "/tmp/../etc/passwd" = (Except.error e1, [])) ∧
     (∃ e2, validate_path_no_follow trivialWorld "/tmp/../etc/passwd" = (Except.error e2, [])) ∧
     (isAbsolutePath (parsePath "/tmp/../etc/passwd") = true →
       validate_path trivialWorld "/tmp/../etc/passwd" = (Except.error FsError.invalidPath, []) ∧
       validate_path_no_follow trivialWorld "/tmp/../etc/passwd"
         = (Except.error FsError.invalidPath, []))) :=
  ⟨by decide, c3_traversal_rejected_before_disk trivialWorld "/tmp/../etc/passwd" (by decide)⟩

/-- C2: whenever validate_path canonicalizes P to a path that either starts
    with no allowed root or matches a compiled denied pattern, validate_sandboxed
    returns AccessDenied; both hypotheses constrain the canonicalized path,
    not the raw input, which is exactly the claim that the checks run on the
    canonical form. -/
theorem c2_sandbox_denies_outside (w : World) (path : String) (config : SecurityConfig)
    (canonical : List String)
    (hv : (validate_path w path).1 = Except.ok canonical)
    (hbad : (∀ root ∈ config.allowedRoots, ¬ root.isPrefixOf canonical) ∨
            (∃ pat ∈ config.deniedPatterns, ∃ m, w.globCompile pat = some m ∧
              m (absPathToString canonical) = true)) :
    (validate_sandboxed w path config).1 = Except.error FsError.accessDenied := by
  have hcs : check_sandbox w canonical config = Except.error FsError.accessDenied := by
    unfold check_sandbox normalize_windows_path
    rcases hbad with hroots | hpat
    · have hfalse : (config.allowedRoots.any fun root => root.isPrefixOf canonical) = false := by
        rw [List.any_eq_false]
        intro root hmem
        exact hroots root hmem
      simp [hfalse]
    · cases hall : (config.allowedRoots.any fun root => root.isPrefixOf canonical) with
      | false => simp [hall]
      | true =>
        obtain ⟨pat, hmem, m, hcomp, hm⟩ := hpat
        have hany : (config.deniedPatterns.any fun pattern =>
            match w.globCompile pattern with
            | some p => p (absPathToString canonical)
            | none => false) = true := by
          rw [List.any_eq_true]
          refine ⟨pat, hmem, ?_⟩
          rw [hcomp]
          exact hm
        simp [hall, hany]
  unfold validate_sandboxed
  rcases hvp : validate_path w path with ⟨r, log⟩
  rw [hvp] at hv
  simp only at hv
  subst hv
  simp [hcs]

/-- World for the C2 witness: /data/link canonicalizes (through a symlink) to
    /outside/secret, which is outside the only allowed root /data. -/
def c2World : World :=
  { root := Node.dir NodeList.nil,
    canon := fun p =>
      if p = [Comp.rootDir, Comp.normal "data", Comp.normal "link"] then
        some ["outside", "secret"]
      else none,
    globCompile := fun _ => none,
    renameErr := fun _ _ => none }

/-- Config for the C2 witness. -/
def c2Config : SecurityConfig := { allowedRoots := [["data"]], deniedPatterns := [] }

/-- C2 witness: the raw input starts with the allowed root /data, but its
    canonical form /outside/secret does not, and the check denies access —
    showing the check runs on the canonical path. -/
theorem c2_witness :
    (validate_path c2World "/data/link").1 = Except.ok ["outside", "secret"] ∧
    (validate_sandboxed c2World "/data/link" c2Config).1 = Except.error FsError.accessDenied :=
  ⟨rfl, c2_sandbox_denies_outside c2World "/data/link" c2Config ["outside", "secret"] rfl
    (Or.inl (by decide))⟩

theorem progressIncrements_eq_range (total : Nat) :
    progressIncrements total = List.range' 1 total := by
  unfold progressIncrements
  rw [List.range'_eq_map_range]
  exact List.map_congr_left (fun a _ => Nat.add_comm a 1)

/-- C7: across a copy_entries_parallel run on total sources, the counter
    hands out exactly total increments, monotonically 1..total; an event is
    emitted exactly at multiples of 5 and at the final item; and the last
    event carries current = total. -/
theorem c7_parallel_progress (total : Nat) (h : 1 ≤ total) :
    (progressIncrements total).length = total ∧
    progressIncrements total = List.range' 1 total ∧
    (∀ c, c ∈ emittedProgress total ↔ ((1 ≤ c ∧ c ≤ total) ∧ (c % 5 = 0 ∨ c = total))) ∧
    (emittedProgress total).getLast? = some total := by
  refine ⟨by simp [progressIncrements], progressIncrements_eq_range total, ?_, ?_⟩
  · intro c
    unfold emittedProgress shouldEmitProgress
    rw [progressIncrements_eq_range]
    simp only [List.mem_filter, List.mem_range', Bool.or_eq_true, beq_iff_eq]
    constructor
    · rintro ⟨⟨i, hi, hc⟩, hp⟩
      omega
    · rintro ⟨⟨h1, h2⟩, hp⟩
      refine ⟨⟨c - 1, by omega, by omega⟩, by omega⟩
  · unfold emittedProgress
    rw [progressIncrements_eq_range]
    obtain ⟨n, rfl⟩ : ∃ n, total = n + 1 := ⟨total - 1, by omega⟩
    rw [List.range'_concat]
    rw [List.filter_append]
    have hlast : shouldEmitProgress (1 + 1 * n) (n + 1) = true := by
      simp [shouldEmitProgress]
      omega
    simp only [List.filter_cons, List.filter_nil, hlast, if_true]
    rw [show (1 + 1 * n) = n + 1 by omega]
    exact List.getLast?_concat _

/-- C8: a search invocation with max_results = K returns at most K results,
    whatever the tree contains: the collected results are truncated with
    take K before being returned. -/
theorem c8_search_quota (w : World) (opts : SearchOptions) (K : Nat)
    (res : List SearchResult)
    (hK : opts.maxResults = some K)
    (hres : search_files_sync w opts = Except.ok res) :
    res.length ≤ K := by
  unfold search_files_sync at hres
  cases hvp : validate_path_file_ops w opts.searchPath with
  | error e =>
    rw [hvp] at hres
    simp at hres
  | ok sp =>
    rw [hvp] at hres
    simp only [hK, Option.getD_some, Except.ok.injEq] at hres
    rw [← hres]
    exact List.length_take_le _ _

/-- C7 witness at total = 7. -/
theorem c7_witness :
    1 ≤ 7 ∧
    ((progressIncrements 7).length = 7 ∧
     progressIncrements 7 = List.range' 1 7 ∧
     (∀ c, c ∈ emittedProgress 7 ↔ ((1 ≤ c ∧ c ≤ 7) ∧ (c % 5 = 0 ∨ c = 7))) ∧
     (emittedProgress 7).getLast? = some 7) :=
  ⟨by decide, c7_parallel_progress 7 (by decide)⟩

/-- World for the C8 witness: /notes holds two files whose names match the
    query, more than the requested maximum of one result. -/
def c8World : World :=
  { root := Node.dir (NodeList.cons "notes"
      (Node.dir (NodeList.cons "a_log.txt" (Node.file [])
        (NodeList.cons "b_log.txt" (Node.file []) NodeList.nil)))
      NodeList.nil),
    canon := fun p => if p = [Comp.rootDir, Comp.normal "notes"] then some ["notes"] else none,
    globCompile := fun _ => none,
    renameErr := fun _ _ => none }

/-- Options for the C8 witness: max_results = 1. -/
def c8Opts : SearchOptions :=
  { query := "log", searchPath := "/notes", searchContent := false,
    caseSensitive := false, maxResults := some 1, fileExtensions := none }

/-- The single result the C8 witness search returns. -/
def c8Result : SearchResult :=
  { path := "/notes/a_log.txt", name := "a_log.txt", isDir := false, foundMatches := [] }

/-- C8 witness: two entries match but only one result is returned. -/
theorem c8_witness :
    c8Opts.maxResults = some 1 ∧
    search_files_sync c8World c8Opts = Except.ok [c8Result] ∧
    ([c8Result] : List SearchResult).length ≤ 1 :=
  ⟨rfl, rfl, c8_search_quota c8World c8Opts 1 [c8Result] rfl rfl⟩

/-- World for C1: the tree has an /outside directory that is not under the
    only allowed root /home; canonicalization resolves /outside faithfully. -/
def c1World : World :=
  { root := Node.dir (NodeList.cons "outside" (Node.dir NodeList.nil)
      (NodeList.cons "home" (Node.dir NodeList.nil) NodeList.nil)),
    canon := fun p =>
      if p = [Comp.rootDir, Comp.normal "outside"] then some ["outside"] else none,
    globCompile := fun _ => none,
    renameErr := fun _ _ => none }

/-- Policy for C1: /home is the only allowed root. -/
def c1Config : SecurityConfig := { allowedRoots := [["home"]], deniedPatterns := [] }

/-- C1 evaluated at the failing input: the sandbox check itself would deny
    /outside under the policy, yet create_file_sync — which never receives
    the policy — happily creates /outside/evil.txt, recording a real write
    access; and search_files_sync — which never receives the policy either —
    walks the out-of-root directory /outside and returns successfully instead
    of AccessDenied. -/
theorem c1_create_file_bypasses_sandbox :
    check_sandbox c1World ["outside"] c1Config = Except.error FsError.accessDenied ∧
    (create_file_sync c1World "/outside/evil.txt").1 = Except.ok () ∧
    (create_file_sync c1World "/outside/evil.txt").2.1.lookup ["outside", "evil.txt"]
      = some (Node.file []) ∧
    Access.createFileAcc ["outside", "evil.txt"]
      ∈ (create_file_sync c1World "/outside/evil.txt").2.2 ∧
    search_files_sync c1World
      { query := "evil", searchPath := "/outside", searchContent := false,
        caseSensitive := false, maxResults := some 10, fileExtensions := none }
      = Except.ok [] :=
  ⟨rfl, rfl, rfl, by decide, rfl⟩

theorem remove_children_ok (s : Nat) :
    ∀ cs : NodeList, cs.sizeList ≤ s → remove_children cs = Except.ok () := by
  induction s with
  | zero =>
    intro cs h
    cases cs with
    | nil => rfl
    | cons name child rest =>
      have := node_size_pos child
      simp only [NodeList.sizeList] at h
      omega
  | succ n ih =>
    intro cs h
    cases cs with
    | nil => rfl
    | cons name child rest =>
      have hpos := node_size_pos child
      simp only [NodeList.sizeList] at h
      have hchild : (if child.isLinkLike then Except.ok ()
          else if child.isDirNode then remove_dir_safe child else Except.ok ())
          = Except.ok () := by
        cases child with
        | file lines => rfl
        | symlink t => rfl
        | dir cs2 =>
          show remove_dir_safe (Node.dir cs2) = Except.ok ()
          rw [show remove_dir_safe (Node.dir cs2) = remove_children cs2 from rfl]
          apply ih
          simp only [Node.size] at hpos h
          omega
      rw [show remove_children (NodeList.cons name child rest)
            = (match (if child.isLinkLike then Except.ok ()
                else if child.isDirNode then remove_dir_safe child else Except.ok ()) with
               | Except.error e => Except.error e
               | Except.ok _ => remove_children rest) from rfl]
      rw [hchild]
      apply ih
      omega

theorem remove_dir_safe_never_tooDeep (n : Node) :
    remove_dir_safe n ≠ Except.error FsError.directoryTooDeep := by
  cases n with
  | file lines => simp [remove_dir_safe]
  | symlink t => simp [remove_dir_safe]
  | dir cs =>
    rw [show remove_dir_safe (Node.dir cs) = remove_children cs from rfl]
    rw [remove_children_ok cs.sizeList cs (le_refl _)]
    simp

theorem mkChain_isDir (k : Nat) : (mkChain k).isDirNode = true := by
  cases k <;> rfl

theorem mkChain_notLink (k : Nat) : (mkChain k).isLinkLike = false := by
  cases k <;> rfl

theorem copyLoop_chain (k : Nat) : ∀ (d : Nat) (dst : List String) (acc : List WriteOp),
    d ≤ MAX_DIRECTORY_DEPTH → MAX_DIRECTORY_DEPTH < d + k →
    copyLoop [(mkChain k, dst, d)] acc = Except.error FsError.directoryTooDeep := by
  induction k with
  | zero =>
    intro d dst acc h1 h2
    omega
  | succ n ih =>
    intro d dst acc h1 h2
    have hnd : ¬ (d > MAX_DIRECTORY_DEPTH) := by omega
    rw [show mkChain (n + 1) = Node.dir (NodeList.cons "d" (mkChain n) NodeList.nil) from rfl]
    unfold copyLoop
    simp only [hnd, if_false, copyChildren, mkChain_notLink, mkChain_isDir,
      Bool.false_eq_true, if_true, List.nil_append]
    by_cases hd2 : d + 1 ≤ MAX_DIRECTORY_DEPTH
    · exact ih (d + 1) (dst ++ ["d"]) _ hd2 (by omega)
    · have hgt : mkChain n = mkChain n := rfl
      unfold copyLoop
      have : d + 1 > MAX_DIRECTORY_DEPTH := by omega
      simp only [this, if_true]

/-- Helper: permanent deletion of a directory entry always reduces to
    remove_dir_safe followed by removal of the subtree. -/
theorem delete_permanent_dir (root : Node) (p : List String) (cs : NodeList)
    (h : root.lookup p = some (Node.dir cs)) :
    delete_permanent root p = Except.ok (root.removeAt p) := by
  unfold delete_permanent
  rw [h]
  show (if (Node.dir cs).isLinkLike then Except.ok (root.removeAt p)
        else if (Node.dir cs).isDirNode then
          match remove_dir_safe (Node.dir cs) with
          | Except.error e => Except.error e
          | Except.ok _ => Except.ok (root.removeAt p)
        else Except.ok (root.removeAt p)) = Except.ok (root.removeAt p)
  rw [show remove_dir_safe (Node.dir cs) = remove_children cs from rfl,
    remove_children_ok cs.sizeList cs (le_refl _)]
  rfl

theorem findName_dir_mem_queue : ∀ (cs : NodeList) (dst : List String) (depth : Nat)
    (name : String) (cs2 : NodeList),
    cs.findName name = some (Node.dir cs2) →
    (Node.dir cs2, dst ++ [name], depth + 1) ∈ (copyChildren cs dst depth).2
  | NodeList.nil, _, _, name, cs2, h => by simp [NodeList.findName] at h
  | NodeList.cons n child rest, dst, depth, name, cs2, h => by
    by_cases hn : n = name
    · subst hn
      simp only [NodeList.findName, if_pos rfl, if_true, Option.some.injEq] at h
      subst h
      simp [copyChildren, Node.isLinkLike, Node.isDirNode]
    · simp only [NodeList.findName, hn, if_false] at h
      have ih := findName_dir_mem_queue rest dst depth name cs2 h
      by_cases h1 : child.isLinkLike
      · simpa [copyChildren, h1] using ih
      · by_cases h2 : child.isDirNode
        · simp only [copyChildren, h1, h2, Bool.false_eq_true, if_false, if_true,
            List.mem_cons]
          exact Or.inr ih
        · simpa [copyChildren, h1, h2] using ih

theorem copyChildren_queue_dirs : ∀ (cs : NodeList) (dst : List String) (depth : Nat),
    ∀ en ∈ (copyChildren cs dst depth).2,
      ∃ cs2, (en : Node × List String × Nat).1 = Node.dir cs2
  | NodeList.nil, _, _, en, hmem => by simp [copyChildren] at hmem
  | NodeList.cons n child rest, dst, depth, en, hmem => by
    by_cases h1 : child.isLinkLike
    · simp only [copyChildren, h1, if_true] at hmem
      exact copyChildren_queue_dirs rest dst depth en hmem
    · by_cases h2 : child.isDirNode
      · simp only [copyChildren, h1, h2, Bool.false_eq_true, if_false, if_true,
          List.mem_cons] at hmem
        rcases hmem with rfl | hmem2
        · obtain ⟨cs2, hcs2⟩ : ∃ cs2, child = Node.dir cs2 := by
            cases child with
            | file lines => simp [Node.isDirNode] at h2
            | symlink t => simp [Node.isDirNode] at h2
            | dir cs2 => exact ⟨cs2, rfl⟩
          exact ⟨cs2, by simp [hcs2]⟩
        · exact copyChildren_queue_dirs rest dst depth en hmem2
      · simp only [copyChildren, h1, h2, Bool.false_eq_true, if_false] at hmem
        exact copyChildren_queue_dirs rest dst depth en hmem

theorem copyLoop_error_tooDeep : ∀ (s : Nat) (q : List (Node × List String × Nat))
    (acc : List WriteOp) (e : FsError),
    queueSize q ≤ s →
    (∀ en ∈ q, ∃ cs, (en : Node × List String × Nat).1 = Node.dir cs) →
    copyLoop q acc = Except.error e →
    e = FsError.directoryTooDeep := by
  intro s
  induction s with
  | zero =>
    intro q acc e hs hdirs hok
    cases q with
    | nil =>
      unfold copyLoop at hok
      cases hok
    | cons hd rest =>
      obtain ⟨n, dst, depth⟩ := hd
      have := node_size_pos n
      simp only [queueSize] at hs
      omega
  | succ m ih =>
    intro q acc e hs hdirs hok
    cases q with
    | nil =>
      unfold copyLoop at hok
      cases hok
    | cons hd rest =>
      obtain ⟨n, dst, depth⟩ := hd
      obtain ⟨cs, hn⟩ := hdirs (n, dst, depth) (by simp)
      simp only at hn
      subst hn
      unfold copyLoop at hok
      by_cases hd2 : depth > MAX_DIRECTORY_DEPTH
      · rw [if_pos hd2] at hok
        injection hok with h
        exact h.symm
      · rw [if_neg hd2] at hok
        simp only at hok
        have hsz : queueSize (rest ++ (copyChildren cs dst depth).2) ≤ m := by
          rw [queueSize_append]
          have h1 := copyChildren_queueSize_le cs dst depth
          simp only [queueSize, Node.size] at hs
          omega
        refine ih _ _ _ hsz ?_ hok
        intro en hen
        rcases List.mem_append.mp hen with hm | hm
        · exact hdirs en (by simp [hm])
        · exact copyChildren_queue_dirs cs dst depth en hm

theorem copyLoop_ok_depth_bound : ∀ (s : Nat) (q : List (Node × List String × Nat))
    (acc ws : List WriteOp),
    queueSize q ≤ s →
    copyLoop q acc = Except.ok ws →
    ∀ en ∈ q, ∀ (rel2 : List String) (cs2 : NodeList),
      (en : Node × List String × Nat).1.lookup rel2 = some (Node.dir cs2) →
      en.2.2 + rel2.length ≤ MAX_DIRECTORY_DEPTH := by
  intro s
  induction s with
  | zero =>
    intro q acc ws hs hok en hen rel2 cs2 hlk
    cases q with
    | nil => simp at hen
    | cons hd rest =>
      obtain ⟨n, dst, depth⟩ := hd
      have := node_size_pos n
      simp only [queueSize] at hs
      omega
  | succ m ih =>
    intro q acc ws hs hok en hen rel2 cs2 hlk
    cases q with
    | nil => simp at hen
    | cons hd rest =>
      obtain ⟨n, dst, depth⟩ := hd
      unfold copyLoop at hok
      by_cases hd2 : depth > MAX_DIRECTORY_DEPTH
      · rw [if_pos hd2] at hok
        cases hok
      · rw [if_neg hd2] at hok
        cases n with
        | file lines => cases hok
        | symlink t => cases hok
        | dir cs =>
          simp only at hok
          have hsz : queueSize (rest ++ (copyChildren cs dst depth).2) ≤ m := by
            rw [queueSize_append]
            have h1 := copyChildren_queueSize_le cs dst depth
            simp only [queueSize, Node.size] at hs
            omega
          rcases List.mem_cons.mp hen with rfl | hrest
          · cases rel2 with
            | nil =>
              simp only [List.length_nil]
              omega
            | cons a rest2 =>
              simp only [Node.lookup] at hlk
              cases hf : cs.findName a with
              | none =>
                rw [hf] at hlk
                cases hlk
              | some c =>
                rw [hf] at hlk
                have hcdir : ∃ cs3, c = Node.dir cs3 := by
                  cases rest2 with
                  | nil =>
                    simp only [Node.lookup, Option.some.injEq] at hlk
                    exact ⟨cs2, hlk⟩
                  | cons b bs =>
                    cases c with
                    | file l => simp [Node.lookup] at hlk
                    | symlink t2 => simp [Node.lookup] at hlk
                    | dir cs3 => exact ⟨cs3, rfl⟩
                obtain ⟨cs3, rfl⟩ := hcdir
                have hpush := findName_dir_mem_queue cs dst depth a cs3 hf
                have hb := ih _ _ _ hsz hok (Node.dir cs3, dst ++ [a], depth + 1)
                  (List.mem_append.mpr (Or.inr hpush)) rest2 cs2 hlk
                simp only at hb
                simp only [List.length_cons]
                omega
          · exact ih _ _ _ hsz hok en (List.mem_append.mpr (Or.inl hrest)) rel2 cs2 hlk

theorem copy_dir_iterative_deep_fails (src : Node) (dst rel : List String) (cs2 : NodeList)
    (hdeep : src.lookup rel = some (Node.dir cs2))
    (hlen : MAX_DIRECTORY_DEPTH < rel.length) :
    copy_dir_iterative src dst = Except.error FsError.directoryTooDeep := by
  have hsrcdir : ∃ cs0, src = Node.dir cs0 := by
    cases rel with
    | nil => simp [MAX_DIRECTORY_DEPTH] at hlen
    | cons a rest2 =>
      cases src with
      | file l => simp [Node.lookup] at hdeep
      | symlink t => simp [Node.lookup] at hdeep
      | dir cs0 => exact ⟨cs0, rfl⟩
  obtain ⟨cs0, rfl⟩ := hsrcdir
  unfold copy_dir_iterative
  cases hres : copyLoop [(Node.dir cs0, dst, 0)] [] with
  | ok ws =>
    have hb := copyLoop_ok_depth_bound (queueSize [(Node.dir cs0, dst, 0)]) _ _ _
      (le_refl _) hres (Node.dir cs0, dst, 0) (by simp) rel cs2 hdeep
    simp only at hb
    omega
  | error e =>
    have he := copyLoop_error_tooDeep (queueSize [(Node.dir cs0, dst, 0)]) _ _ e
      (le_refl _) ?_ hres
    · rw [he]
    · intro en hen
      simp only [List.mem_singleton] at hen
      subst hen
      exact ⟨cs0, rfl⟩

/-- C4 as amended: recursive copy does traverse with the explicit work queue
    and fails with DirectoryTooDeep on any source tree that has a directory
    at (link-free) relative depth beyond the limit — that is, on any tree
    nested deeper than the configured maximum — but permanent recursive
    delete uses native call-stack recursion with no depth parameter: it never
    returns DirectoryTooDeep, however deep the tree. -/
theorem c4_copy_depth_bounded_delete_unbounded :
    (∀ (src : Node) (dst rel : List String) (cs2 : NodeList),
      src.lookup rel = some (Node.dir cs2) → MAX_DIRECTORY_DEPTH < rel.length →
      copy_dir_iterative src dst = Except.error FsError.directoryTooDeep) ∧
    (∀ n : Node, remove_dir_safe n ≠ Except.error FsError.directoryTooDeep) :=
  ⟨fun src dst rel cs2 h1 h2 => copy_dir_iterative_deep_fails src dst rel cs2 h1 h2,
   remove_dir_safe_never_tooDeep⟩

theorem lookup_mkChain : ∀ k : Nat,
    (mkChain k).lookup (List.replicate k "d") = some (Node.dir NodeList.nil)
  | 0 => rfl
  | k + 1 => by
    simp only [mkChain, List.replicate, Node.lookup, NodeList.findName, if_pos rfl]
    exact lookup_mkChain k

/-- C4 witness at a chain of 102 nested directories: its deepest directory
    sits at relative depth 101 > 100. -/
theorem c4_witness :
    ((mkChain 101).lookup (List.replicate 101 "d") = some (Node.dir NodeList.nil) ∧
     MAX_DIRECTORY_DEPTH < (List.replicate 101 "d").length) ∧
    copy_dir_iterative (mkChain 101) ["copy"] = Except.error FsError.directoryTooDeep ∧
    remove_dir_safe (mkChain 101) ≠ Except.error FsError.directoryTooDeep :=
  ⟨⟨lookup_mkChain 101, by decide⟩,
   c4_copy_depth_bounded_delete_unbounded.1 (mkChain 101) ["copy"]
     (List.replicate 101 "d") NodeList.nil (lookup_mkChain 101) (by decide),
   c4_copy_depth_bounded_delete_unbounded.2 (mkChain 101)⟩

/-- C4 counterexample: on a directory nested 102 levels deep, recursive copy
    fails with DirectoryTooDeep as claimed, but permanent recursive delete
    succeeds — it does not fail with DirectoryTooDeep, refuting the half of
    the claim about delete. -/
theorem c4_counterexample :
    delete_permanent (Node.dir (NodeList.cons "deep" (mkChain 101) NodeList.nil)) ["deep"]
      = Except.ok (Node.dir NodeList.nil) ∧
    copy_dir_iterative (mkChain 101) ["copy2"] = Except.error FsError.directoryTooDeep := by
  constructor
  · rw [delete_permanent_dir (Node.dir (NodeList.cons "deep" (mkChain 101) NodeList.nil))
      ["deep"] (NodeList.cons "d" (mkChain 100) NodeList.nil) rfl]
    rfl
  · unfold copy_dir_iterative
    exact copyLoop_chain 101 0 ["copy2"] [] (by decide) (by decide)

theorem findName_eraseName_self : ∀ (cs : NodeList) (name : String),
    (cs.eraseName name).findName name = none
  | NodeList.nil, _ => rfl
  | NodeList.cons n node tail, name => by
    by_cases h : n = name
    · subst h
      simp [NodeList.eraseName, findName_eraseName_self tail n]
    · simp [NodeList.eraseName, NodeList.findName, h, findName_eraseName_self tail name]

theorem findName_eraseName_ne : ∀ (cs : NodeList) (name z : String), z ≠ name →
    (cs.eraseName name).findName z = cs.findName z
  | NodeList.nil, _, _, _ => rfl
  | NodeList.cons n node tail, name, z, hz => by
    by_cases h : n = name
    · subst h
      simp [NodeList.eraseName, NodeList.findName, Ne.symm hz,
        findName_eraseName_ne tail n z hz]
    · by_cases h2 : n = z
      · simp [NodeList.eraseName, NodeList.findName, h, h2, hz]
      · simp [NodeList.eraseName, NodeList.findName, h, h2,
          findName_eraseName_ne tail name z hz]

theorem findName_removeWithin_self : ∀ (cs : NodeList) (name : String) (path : List String),
    (NodeList.removeWithin cs name path).findName name
      = (cs.findName name).map (fun nd => nd.removeAt path)
  | NodeList.nil, _, _ => rfl
  | NodeList.cons n node tail, name, path => by
    by_cases h : n = name
    · subst h
      simp [NodeList.removeWithin, NodeList.findName]
    · simp [NodeList.removeWithin, NodeList.findName, h,
        findName_removeWithin_self tail name path]

theorem findName_removeWithin_ne : ∀ (cs : NodeList) (name z : String) (path : List String),
    z ≠ name →
    (NodeList.removeWithin cs name path).findName z = cs.findName z
  | NodeList.nil, _, _, _, _ => rfl
  | NodeList.cons n node tail, name, z, path, hz => by
    by_cases h : n = name
    · subst h
      simp [NodeList.removeWithin, NodeList.findName, Ne.symm hz,
        findName_removeWithin_ne tail n z path hz]
    · by_cases h2 : n = z
      · simp [NodeList.removeWithin, NodeList.findName, h, h2, hz]
      · simp [NodeList.removeWithin, NodeList.findName, h, h2,
          findName_removeWithin_ne tail name z path hz]

theorem lookup_removeAt_self : ∀ (L : List String) (root : Node) (n : Node),
    root.lookup L = some n → L ≠ [] → (root.removeAt L).lookup L = none
  | [], _, _, _, hne => absurd rfl hne
  | [name], root, n, h, _ => by
    cases root with
    | file lines => simp [Node.lookup] at h
    | symlink t => simp [Node.lookup] at h
    | dir cs =>
      show (Node.dir (cs.eraseName name)).lookup [name] = none
      simp only [Node.lookup]
      rw [findName_eraseName_self]
  | name :: sub :: rest, root, n, h, _ => by
    cases root with
    | file lines => simp [Node.lookup] at h
    | symlink t => simp [Node.lookup] at h
    | dir cs =>
      simp only [Node.lookup] at h
      cases hf : cs.findName name with
      | none =>
        rw [hf] at h
        simp at h
      | some c =>
        rw [hf] at h
        show (Node.dir (NodeList.removeWithin cs name (sub :: rest))).lookup
          (name :: sub :: rest) = none
        simp only [Node.lookup]
        rw [findName_removeWithin_self, hf]
        simp only [Option.map]
        exact lookup_removeAt_self (sub :: rest) c n h (by simp)

theorem lookup_removeAt_preserved : ∀ (L : List String) (root : Node) (F : List String)
    (t : String) (lines : List String),
    root.lookup L = some (Node.symlink t) →
    root.lookup F = some (Node.file lines) →
    F ≠ L →
    (root.removeAt L).lookup F = some (Node.file lines)
  | [], root, F, t, lines, hL, hF, hne => by
    simp only [Node.lookup, Option.some.injEq] at hL
    subst hL
    cases F with
    | nil => simp [Node.lookup] at hF
    | cons b Frest => simp [Node.lookup] at hF
  | [a], root, F, t, lines, hL, hF, hne => by
    cases root with
    | file l2 => simp [Node.lookup] at hL
    | symlink t2 => simp [Node.lookup] at hL
    | dir cs =>
      simp only [Node.lookup] at hL
      cases hfa : cs.findName a with
      | none =>
        rw [hfa] at hL
        simp at hL
      | some c =>
        rw [hfa] at hL
        simp only [Node.lookup] at hL
        cases hL
        cases F with
        | nil => simp [Node.lookup] at hF
        | cons b Frest =>
          by_cases hb : b = a
          · subst hb
            simp only [Node.lookup, hfa] at hF
            cases Frest with
            | nil => simp [Node.lookup] at hF
            | cons x xs => simp [Node.lookup] at hF
          · show (Node.dir (cs.eraseName a)).lookup (b :: Frest) = some (Node.file lines)
            simp only [Node.lookup] at hF ⊢
            rw [findName_eraseName_ne cs a b hb]
            exact hF
  | a :: sub :: rest, root, F, t, lines, hL, hF, hne => by
    cases root with
    | file l2 => simp [Node.lookup] at hL
    | symlink t2 => simp [Node.lookup] at hL
    | dir cs =>
      simp only [Node.lookup] at hL
      cases hfa : cs.findName a with
      | none =>
        rw [hfa] at hL
        simp at hL
      | some c =>
        rw [hfa] at hL
        simp only at hL
        cases F with
        | nil => simp [Node.lookup] at hF
        | cons b Frest =>
          by_cases hb : b = a
          · subst hb
            simp only [Node.lookup, hfa] at hF
            have hFrest : Frest ≠ sub :: rest := by
              intro hc
              exact hne (by rw [hc])
            show (Node.dir (NodeList.removeWithin cs b (sub :: rest))).lookup
              (b :: Frest) = some (Node.file lines)
            simp only [Node.lookup]
            rw [findName_removeWithin_self, hfa]
            simp only [Option.map]
            exact lookup_removeAt_preserved (sub :: rest) c Frest t lines hL hF hFrest
          · show (Node.dir (NodeList.removeWithin cs a (sub :: rest))).lookup
              (b :: Frest) = some (Node.file lines)
            simp only [Node.lookup] at hF ⊢
            rw [findName_removeWithin_ne cs a b (sub :: rest) hb]
            exact hF

/-- C5: deleting a symlink permanently (through the delete command chain,
    once the paths have passed sandbox validation) removes the link entry L
    itself and leaves the target file F untouched: the deletion branches on
    link-level metadata and removes the link without dereferencing it. -/
theorem c5_delete_symlink_no_follow (w : World) (s : String) (config : SecurityConfig)
    (L F : List String) (t : String) (lines : List String)
    (hval : (validate_paths_sandboxed w [s] config).1 = Except.ok [L])
    (hL : w.root.lookup L = some (Node.symlink t))
    (hF : w.root.lookup F = some (Node.file lines))
    (hne : F ≠ L) :
    delete_entries_sync w [s] true config = Except.ok (w.root.removeAt L) ∧
    (w.root.removeAt L).lookup L = none ∧
    (w.root.removeAt L).lookup F = some (Node.file lines) := by
  refine ⟨?_, lookup_removeAt_self L w.root _ hL ?_, lookup_removeAt_preserved L w.root F t lines hL hF hne⟩
  · unfold delete_entries_sync
    rw [hval]
    unfold delete_entries_body
    rw [hL]
    have hdp : delete_permanent w.root L = Except.ok (w.root.removeAt L) := by
      unfold delete_permanent
      rw [hL]
      rfl
    simp only [if_true, hdp]
    rfl
  · intro hLnil
    rw [hLnil] at hL
    have hroot : w.root = Node.symlink t := by
      simpa [Node.lookup] using hL
    rw [hroot] at hF
    cases F with
    | nil => simp [Node.lookup] at hF
    | cons x xs => simp [Node.lookup] at hF

/-- World for the C5 witness: a symlink /link pointing at the file
    /target/f. -/
def c5World : World :=
  { root := Node.dir (NodeList.cons "link" (Node.symlink "/target/f")
      (NodeList.cons "target"
        (Node.dir (NodeList.cons "f" (Node.file ["data"]) NodeList.nil))
        NodeList.nil)),
    canon := fun _ => none,
    globCompile := fun _ => none,
    renameErr := fun _ _ => none }

/-- Policy for the C5 witness: everything under the filesystem root is
    allowed. -/
def c5Config : SecurityConfig := { allowedRoots := [[]], deniedPatterns := [] }

/-- C5 witness: permanently deleting /link removes the link and leaves
    /target/f with its content. -/
theorem c5_witness :
    ((validate_paths_sandboxed c5World ["/link"] c5Config).1 = Except.ok [["link"]] ∧
     c5World.root.lookup ["link"] = some (Node.symlink "/target/f") ∧
     c5World.root.lookup ["target", "f"] = some (Node.file ["data"])) ∧
    (delete_entries_sync c5World ["/link"] true c5Config
        = Except.ok (c5World.root.removeAt ["link"]) ∧
     (c5World.root.removeAt ["link"]).lookup ["link"] = none ∧
     (c5World.root.removeAt ["link"]).lookup ["target", "f"] = some (Node.file ["data"])) :=
  ⟨⟨rfl, rfl, rfl⟩,
    c5_delete_symlink_no_follow c5World "/link" c5Config ["link"] ["target", "f"]
      "/target/f" ["data"] rfl rfl rfl (by decide)⟩

/-- C10: a move source whose target name already exists in the destination
    directory is silently skipped: move_entries_sync still returns success,
    performs no fallback writes, and the tree — existing target and source
    included — is returned unchanged. -/
theorem c10_move_existing_target_skipped (w : World) (s dest : String)
    (config : SecurityConfig) (srcP destP : List String) (name : String)
    (tgtNode : Node) (d : NodeList)
    (hval : (validate_paths_sandboxed w [s] config).1 = Except.ok [srcP])
    (hdest : (validate_sandboxed w dest config).1 = Except.ok destP)
    (hdestDir : w.root.lookup destP = some (Node.dir d))
    (hname : srcP.getLast? = some name)
    (hne : srcP ≠ destP ++ [name])
    (htgt : w.root.lookup (destP ++ [name]) = some tgtNode) :
    move_entries_sync w [s] dest config = (Except.ok (), w.root, []) := by
  have hone : move_one w.root w.renameErr srcP destP = (Except.ok (), w.root, []) := by
    unfold move_one
    rw [hname]
    simp only [hne, if_false, htgt]
  unfold move_entries_sync
  rw [hval, hdest]
  simp only [hdestDir, Node.isDirNode, Bool.not_true, Bool.false_eq_true, if_false]
  unfold move_entries_body move_entries_body
  rw [hone]
  simp

/-- World for the C10 witness: /a exists both as a source file and as a child
    of the destination /dst. -/
def c10World : World :=
  { root := Node.dir (NodeList.cons "a" (Node.file ["x"])
      (NodeList.cons "dst"
        (Node.dir (NodeList.cons "a" (Node.file ["y"]) NodeList.nil))
        NodeList.nil)),
    canon := fun p => if p = [Comp.rootDir, Comp.normal "dst"] then some ["dst"] else none,
    globCompile := fun _ => none,
    renameErr := fun _ _ => none }

/-- Policy for the C10 witness. -/
def c10Config : SecurityConfig := { allowedRoots := [[]], deniedPatterns := [] }

/-- C10 witness: moving /a into /dst where /dst/a exists succeeds without
    touching anything. -/
theorem c10_witness :
    ((validate_paths_sandboxed c10World ["/a"] c10Config).1 = Except.ok [["a"]] ∧
     (validate_sandboxed c10World "/dst" c10Config).1 = Except.ok ["dst"] ∧
     c10World.root.lookup (["dst"] ++ ["a"]) = some (Node.file ["y"])) ∧
    move_entries_sync c10World ["/a"] "/dst" c10Config = (Except.ok (), c10World.root, []) :=
  ⟨⟨rfl, rfl, rfl⟩,
    c10_move_existing_target_skipped c10World "/a" "/dst" c10Config ["a"] ["dst"] "a"
      (Node.file ["y"]) (NodeList.cons "a" (Node.file ["y"]) NodeList.nil)
      rfl rfl rfl rfl (by decide) rfl⟩

theorem lookup_append : ∀ (p : List String) (n : Node) (q : List String),
    n.lookup (p ++ q) = (n.lookup p).bind (fun m => m.lookup q)
  | [], n, q => by simp [Node.lookup]
  | a :: rest, n, q => by
    cases n with
    | file lines => simp [Node.lookup]
    | symlink t => simp [Node.lookup]
    | dir cs =>
      simp only [List.cons_append, Node.lookup]
      cases hf : cs.findName a with
      | none => simp
      | some c => simp [lookup_append rest c q]

theorem findName_some_mem_names : ∀ (cs : NodeList) (z : String) (c : Node),
    cs.findName z = some c → z ∈ cs.names
  | NodeList.nil, z, c, h => by simp [NodeList.findName] at h
  | NodeList.cons n node tail, z, c, h => by
    by_cases hn : n = z
    · subst hn
      simp [NodeList.names]
    · simp only [NodeList.findName, hn, if_false] at h
      simp only [NodeList.names, List.mem_cons]
      exact Or.inr (findName_some_mem_names tail z c h)

theorem wf_dir_parts (cs : NodeList) (h : (Node.dir cs).wf = true) :
    cs.names.Nodup ∧ cs.allWf = true := by
  rw [show (Node.dir cs).wf = (decide cs.names.Nodup && cs.allWf) from rfl] at h
  simp only [Bool.and_eq_true, decide_eq_true_eq] at h
  exact h

theorem allWf_findName : ∀ (cs : NodeList) (name : String) (c : Node),
    cs.allWf = true → cs.findName name = some c → c.wf = true
  | NodeList.nil, name, c, _, h => by simp [NodeList.findName] at h
  | NodeList.cons n node tail, name, c, hwf, h => by
    rw [show (NodeList.cons n node tail).allWf = (node.wf && tail.allWf) from rfl] at hwf
    simp only [Bool.and_eq_true] at hwf
    by_cases hn : n = name
    · simp only [NodeList.findName, hn, if_true, Option.some.injEq] at h
      rw [← h]
      exact hwf.1
    · simp only [NodeList.findName, hn, if_false] at h
      exact allWf_findName tail name c hwf.2 h

theorem not_link_not_dir_is_file (n : Node)
    (h1 : n.isLinkLike = false) (h2 : n.isDirNode = false) :
    n = Node.file n.nodeLines := by
  cases n with
  | file lines => rfl
  | symlink t => simp [Node.isLinkLike] at h1
  | dir cs => simp [Node.isDirNode] at h2

theorem copyChildren_mem_writes : ∀ (cs : NodeList) (dst : List String) (depth : Nat),
    cs.names.Nodup →
    ∀ wop ∈ (copyChildren cs dst depth).1,
      ∃ name lines, wop = WriteOp.copyFile (dst ++ [name]) lines ∧
        cs.findName name = some (Node.file lines)
  | NodeList.nil, dst, depth, _, wop, hmem => by simp [copyChildren] at hmem
  | NodeList.cons name child rest, dst, depth, hnd, wop, hmem => by
    have hnd0 : (name :: rest.names).Nodup := by
      simpa [NodeList.names] using hnd
    have hnd2 : rest.names.Nodup := (List.nodup_cons.mp hnd0).2
    have hnotmem : name ∉ rest.names := (List.nodup_cons.mp hnd0).1
    have lift : ∀ wop2 ∈ (copyChildren rest dst depth).1,
        ∃ nm lines, wop2 = WriteOp.copyFile (dst ++ [nm]) lines ∧
          (NodeList.cons name child rest).findName nm = some (Node.file lines) := by
      intro wop2 hmem2
      obtain ⟨nm, lines, heq, hf⟩ := copyChildren_mem_writes rest dst depth hnd2 wop2 hmem2
      refine ⟨nm, lines, heq, ?_⟩
      have hin : nm ∈ rest.names := findName_some_mem_names rest nm _ hf
      have hne : ¬(name = nm) := fun hc => hnotmem (hc ▸ hin)
      simp only [NodeList.findName, hne, if_false]
      exact hf
    by_cases h1 : child.isLinkLike
    · simp only [copyChildren, h1, if_true] at hmem
      exact lift wop hmem
    · by_cases h2 : child.isDirNode
      · simp only [copyChildren, h1, h2, Bool.false_eq_true, if_false, if_true] at hmem
        exact lift wop hmem
      · simp only [copyChildren, h1, h2, Bool.false_eq_true, if_false,
          List.mem_cons] at hmem
        rcases hmem with rfl | hmem2
        · refine ⟨name, child.nodeLines, rfl, ?_⟩
          simp only [NodeList.findName, if_pos rfl, if_true, Option.some.injEq]
          exact not_link_not_dir_is_file child (by simpa using h1) (by simpa using h2)
        · exact lift wop hmem2

theorem copyChildren_mem_queue : ∀ (cs : NodeList) (dst : List String) (depth : Nat),
    cs.names.Nodup → cs.allWf = true →
    ∀ e ∈ (copyChildren cs dst depth).2,
      ∃ name cs2, e = (Node.dir cs2, dst ++ [name], depth + 1) ∧
        cs.findName name = some (Node.dir cs2) ∧ (Node.dir cs2).wf = true
  | NodeList.nil, dst, depth, _, _, e, hmem => by simp [copyChildren] at hmem
  | NodeList.cons name child rest, dst, depth, hnd, hwf, e, hmem => by
    have hnd0 : (name :: rest.names).Nodup := by
      simpa [NodeList.names] using hnd
    have hnd2 : rest.names.Nodup := (List.nodup_cons.mp hnd0).2
    have hnotmem : name ∉ rest.names := (List.nodup_cons.mp hnd0).1
    have hwf0 : child.wf = true ∧ rest.allWf = true := by
      rw [show (NodeList.cons name child rest).allWf = (child.wf && rest.allWf) from rfl] at hwf
      simpa [Bool.and_eq_true] using hwf
    have lift : ∀ e2 ∈ (copyChildren rest dst depth).2,
        ∃ nm cs2, e2 = (Node.dir cs2, dst ++ [nm], depth + 1) ∧
          (NodeList.cons name child rest).findName nm = some (Node.dir cs2) ∧
          (Node.dir cs2).wf = true := by
      intro e2 hmem2
      obtain ⟨nm, cs2, heq, hf, hw⟩ := copyChildren_mem_queue rest dst depth hnd2 hwf0.2 e2 hmem2
      refine ⟨nm, cs2, heq, ?_, hw⟩
      have hin : nm ∈ rest.names := findName_some_mem_names rest nm _ hf
      have hne : ¬(name = nm) := fun hc => hnotmem (hc ▸ hin)
      simp only [NodeList.findName, hne, if_false]
      exact hf
    by_cases h1 : child.isLinkLike
    · simp only [copyChildren, h1, if_true] at hmem
      exact lift e hmem
    · by_cases h2 : child.isDirNode
      · simp only [copyChildren, h1, h2, Bool.false_eq_true, if_false, if_true,
          List.mem_cons] at hmem
        rcases hmem with rfl | hmem2
        · obtain ⟨cs2, hcs2⟩ : ∃ cs2, child = Node.dir cs2 := by
            cases child with
            | file lines => simp [Node.isDirNode] at h2
            | symlink t => simp [Node.isDirNode] at h2
            | dir cs2 => exact ⟨cs2, rfl⟩
          subst hcs2
          refine ⟨name, cs2, rfl, ?_, hwf0.1⟩
          simp [NodeList.findName]
        · exact lift e hmem2
      · simp only [copyChildren, h1, h2, Bool.false_eq_true, if_false] at hmem
        exact lift e hmem

theorem copyLoop_sound (src : Node) (dstRoot : List String) :
    ∀ (s : Nat) (q : List (Node × List String × Nat)) (acc ws : List WriteOp),
    queueSize q ≤ s →
    QueueOk src dstRoot q →
    (∀ wop ∈ acc, WriteFromSource src dstRoot wop) →
    copyLoop q acc = Except.ok ws →
    ∀ wop ∈ ws, WriteFromSource src dstRoot wop := by
  intro s
  induction s with
  | zero =>
    intro q acc ws hs hq hacc hok
    cases q with
    | nil =>
      unfold copyLoop at hok
      cases hok
      exact hacc
    | cons e rest =>
      obtain ⟨n, dst, depth⟩ := e
      have := node_size_pos n
      simp only [queueSize] at hs
      omega
  | succ m ih =>
    intro q acc ws hs hq hacc hok
    cases q with
    | nil =>
      unfold copyLoop at hok
      cases hok
      exact hacc
    | cons e rest =>
      obtain ⟨n, dst, depth⟩ := e
      obtain ⟨rel, cs, hn, hdst, hlook, hwf⟩ := hq (n, dst, depth) (by simp)
      simp only at hn hdst
      subst hn
      subst hdst
      unfold copyLoop at hok
      by_cases hd : depth > MAX_DIRECTORY_DEPTH
      · rw [if_pos hd] at hok
        exact absurd hok (by simp)
      · rw [if_neg hd] at hok
        simp only at hok
        have hparts := wf_dir_parts cs hwf
        have hq2 : QueueOk src dstRoot
            (rest ++ (copyChildren cs (dstRoot ++ rel) depth).2) := by
          intro e2 hmem
          rcases List.mem_append.mp hmem with hm | hm
          · exact hq e2 (by simp [hm])
          · obtain ⟨nm, cs2, heq, hf, hw⟩ :=
              copyChildren_mem_queue cs _ depth hparts.1 hparts.2 e2 hm
            subst heq
            refine ⟨rel ++ [nm], cs2, rfl, by simp, ?_, hw⟩
            rw [lookup_append, hlook]
            simp [Node.lookup, hf]
        have hacc2 : ∀ wop ∈ acc ++ (WriteOp.mkDir (dstRoot ++ rel)
            :: (copyChildren cs (dstRoot ++ rel) depth).1),
            WriteFromSource src dstRoot wop := by
          intro wop hmem
          rcases List.mem_append.mp hmem with hm | hm
          · exact hacc wop hm
          · rcases List.mem_cons.mp hm with rfl | hm2
            · exact ⟨rel, cs, rfl, hlook⟩
            · obtain ⟨nm, lines, heq, hf⟩ :=
                copyChildren_mem_writes cs _ depth hparts.1 wop hm2
              subst heq
              refine ⟨rel ++ [nm], by simp, ?_⟩
              rw [lookup_append, hlook]
              simp [Node.lookup, hf]
        have hsz : queueSize (rest ++ (copyChildren cs (dstRoot ++ rel) depth).2) ≤ m := by
          rw [queueSize_append]
          have h1 := copyChildren_queueSize_le cs (dstRoot ++ rel) depth
          simp only [queueSize, Node.size] at hs
          omega
        exact ih _ _ _ hsz hq2 hacc2 hok

theorem copy_dir_iterative_sound (cs : NodeList) (dst : List String) (ws : List WriteOp)
    (hwf : (Node.dir cs).wf = true)
    (hok : copy_dir_iterative (Node.dir cs) dst = Except.ok ws) :
    ∀ wop ∈ ws, WriteFromSource (Node.dir cs) dst wop := by
  unfold copy_dir_iterative at hok
  refine copyLoop_sound (Node.dir cs) dst (queueSize [(Node.dir cs, dst, 0)]) _ [] ws
    (le_refl _) ?_ ?_ hok
  · intro e hmem
    simp only [List.mem_singleton] at hmem
    subst hmem
    exact ⟨[], cs, rfl, by simp, by simp [Node.lookup], hwf⟩
  · intro wop hmem
    simp at hmem

/-- C6: every write performed by the iterative copy of a (wellformed) source
    directory originates, at the matching relative path, from a non-link
    entry of the source subtree reachable without crossing any symlink —
    child metadata is taken link-level and link-like entries are skipped, so
    no destination entry corresponds to a symlink of the source and no
    content from outside the source tree is ever read or copied. -/
theorem c6_copy_skips_links (cs : NodeList) (dst : List String) (ws : List WriteOp)
    (hwf : (Node.dir cs).wf = true)
    (hok : copy_dir_iterative (Node.dir cs) dst = Except.ok ws) :
    (∀ wop ∈ ws, WriteFromSource (Node.dir cs) dst wop) ∧
    (∀ rel t, (Node.dir cs).lookup rel = some (Node.symlink t) →
      ∀ wop ∈ ws, wop.target ≠ dst ++ rel) := by
  have h1 := copy_dir_iterative_sound cs dst ws hwf hok
  refine ⟨h1, ?_⟩
  intro rel t hrel wop hmem heq
  have h2 := h1 wop hmem
  cases wop with
  | mkDir p =>
    obtain ⟨rel2, cs2, hp, hl⟩ := h2
    rw [show (WriteOp.mkDir p).target = p from rfl] at heq
    rw [heq] at hp
    have hr : rel2 = rel := (List.append_cancel_left hp).symm
    subst hr
    rw [hrel] at hl
    cases hl
  | copyFile p lines =>
    obtain ⟨rel2, hp, hl⟩ := h2
    rw [show (WriteOp.copyFile p lines).target = p from rfl] at heq
    rw [heq] at hp
    have hr : rel2 = rel := (List.append_cancel_left hp).symm
    subst hr
    rw [hrel] at hl
    cases hl

/-- Source tree for the C6 witness: a file, a symlink pointing outside, and a
    subdirectory. -/
def c6Cs : NodeList :=
  NodeList.cons "f" (Node.file ["x"])
    (NodeList.cons "link" (Node.symlink "/outside")
      (NodeList.cons "sub" (Node.dir (NodeList.cons "g" (Node.file ["y"]) NodeList.nil))
        NodeList.nil))

/-- The writes the C6 witness copy performs: no entry for the symlink. -/
def c6Writes : List WriteOp :=
  [WriteOp.mkDir ["dst"], WriteOp.copyFile ["dst", "f"] ["x"],
   WriteOp.mkDir ["dst", "sub"], WriteOp.copyFile ["dst", "sub", "g"] ["y"]]

/-- C6 witness: copying a tree containing a symlink to /outside produces only
    writes sourced from non-link entries, and no write lands at the
    destination path of the link. -/
theorem c6_witness :
    ((Node.dir c6Cs).wf = true ∧
     copy_dir_iterative (Node.dir c6Cs) ["dst"] = Except.ok c6Writes) ∧
    ((∀ wop ∈ c6Writes, WriteFromSource (Node.dir c6Cs) ["dst"] wop) ∧
     (∀ rel t, (Node.dir c6Cs).lookup rel = some (Node.symlink t) →
       ∀ wop ∈ c6Writes, wop.target ≠ ["dst"] ++ rel)) :=
  ⟨⟨by decide,
    by simp [copy_dir_iterative, copyLoop, copyChildren, c6Cs, c6Writes, Node.isLinkLike,
      Node.isDirNode, Node.nodeLines, MAX_DIRECTORY_DEPTH]⟩,
   c6_copy_skips_links c6Cs ["dst"] c6Writes (by decide)
     (by simp [copy_dir_iterative, copyLoop, copyChildren, c6Cs, c6Writes, Node.isLinkLike,
       Node.isDirNode, Node.nodeLines, MAX_DIRECTORY_DEPTH])⟩

/-- C9: per move source of any kind (once past the equal-path and
    existing-target skips), a rename is attempted first: when the rename
    oracle reports success or a non-EXDEV failure there is no fallback copy
    (no writes at all; a non-EXDEV failure aborts), and exactly on an EXDEV
    failure the move falls back to copy_single_entry followed by deletion of
    the source.  The fallback writes are precisely the copy writes and each
    of them comes from a non-link entry of the source — whatever the source
    is: for a directory via the queue copy, for a file exactly its content,
    for a symlink nothing at all (skip-symlink preserved) — and when the
    fallback succeeds the source entry no longer exists while its copy has
    been written under destination/name. -/
theorem c9_move_rename_then_exdev_fallback (root : Node)
    (rerr : List String → List String → Option RenameError)
    (src dest : List String) (name : String)
    (hname : src.getLast? = some name)
    (hne : src ≠ dest ++ [name])
    (htgt : root.lookup (dest ++ [name]) = none) :
    ((rerr src (dest ++ [name]) = none ∨ rerr src (dest ++ [name]) = some RenameError.other) →
      (move_one root rerr src dest).2.2 = []) ∧
    (rerr src (dest ++ [name]) = some RenameError.exdev →
      ∀ ws, copy_single_entry root src dest = Except.ok ws →
        (move_one root rerr src dest).2.2 = ws ∧
        (∀ meta, root.lookup src = some meta → meta.wf = true →
          ∀ wop ∈ ws, WriteFromSource meta (dest ++ [name]) wop) ∧
        ((move_one root rerr src dest).1 = Except.ok () →
          (move_one root rerr src dest).2.1.lookup src = none)) ∧
    (∀ lines, root.lookup src = some (Node.file lines) →
      rerr src (dest ++ [name]) = some RenameError.exdev →
      (move_one root rerr src dest).2.2 = [WriteOp.copyFile (dest ++ [name]) lines]) ∧
    (∀ t, root.lookup src = some (Node.symlink t) →
      rerr src (dest ++ [name]) = some RenameError.exdev →
      (move_one root rerr src dest).2.2 = []) := by
  refine ⟨?_, ?_, ?_, ?_⟩
  · intro h
    unfold move_one
    rw [hname]
    simp only [hne, if_false, htgt]
    rcases h with h | h
    · rw [h]
      cases hrs : renameSubtree root src (dest ++ [name]) with
      | ok root2 => simp
      | error e => simp
    · rw [h]
  · intro h ws hcse
    have hsrcne : src ≠ [] := by
      intro hc
      rw [hc] at hname
      simp at hname
    have hC : ∀ meta, root.lookup src = some meta → meta.wf = true →
        ∀ wop ∈ ws, WriteFromSource meta (dest ++ [name]) wop := by
      intro meta hmeta hwf wop hwop
      unfold copy_single_entry at hcse
      rw [hname, hmeta] at hcse
      cases meta with
      | symlink t =>
        simp only [Node.isLinkLike, if_true, Except.ok.injEq] at hcse
        rw [← hcse] at hwop
        simp at hwop
      | file lines =>
        simp only [Node.isLinkLike, Node.isDirNode, Bool.false_eq_true, if_false,
          Node.nodeLines, Except.ok.injEq] at hcse
        rw [← hcse] at hwop
        simp only [List.mem_singleton] at hwop
        subst hwop
        exact ⟨[], by simp, by simp [Node.lookup]⟩
      | dir cs =>
        have hiter : copy_dir_iterative (Node.dir cs) (dest ++ [name]) = Except.ok ws := by
          simpa [Node.isLinkLike, Node.isDirNode] using hcse
        exact copy_dir_iterative_sound cs (dest ++ [name]) ws hwf hiter wop hwop
    unfold move_one
    rw [hname]
    simp only [hne, if_false, htgt, h, hcse]
    cases hrm : remove_dir_all (applyWrites root ws) src with
    | ok root3 =>
      refine ⟨rfl, hC, fun _ => ?_⟩
      unfold remove_dir_all at hrm
      cases hlk : (applyWrites root ws).lookup src with
      | none =>
        rw [hlk] at hrm
        cases hrm
      | some nn =>
        rw [hlk] at hrm
        cases nn with
        | file lines => cases hrm
        | symlink t => cases hrm
        | dir cs3 =>
          cases hrm
          exact lookup_removeAt_self src _ _ hlk hsrcne
    | error e =>
      refine ⟨rfl, hC, fun hcontra => ?_⟩
      cases hcontra
  · intro lines hmeta h
    have hcse : copy_single_entry root src dest
        = Except.ok [WriteOp.copyFile (dest ++ [name]) lines] := by
      unfold copy_single_entry
      rw [hname, hmeta]
      simp [Node.isLinkLike, Node.isDirNode, Node.nodeLines]
    unfold move_one
    rw [hname]
    simp only [hne, if_false, htgt, h, hcse]
    cases hrm : remove_dir_all
        (applyWrites root [WriteOp.copyFile (dest ++ [name]) lines]) src with
    | ok root3 => rfl
    | error e => rfl
  · intro t hmeta h
    have hcse : copy_single_entry root src dest = Except.ok [] := by
      unfold copy_single_entry
      rw [hname, hmeta]
      simp [Node.isLinkLike]
    unfold move_one
    rw [hname]
    simp only [hne, if_false, htgt, h, hcse]
    cases hrm : remove_dir_all (applyWrites root []) src with
    | ok root3 => rfl
    | error e => rfl

/-- Children of the source directory for the C9 witness: a file and a
    symlink. -/
def c9SrcCs : NodeList :=
  NodeList.cons "a" (Node.file ["1"]) (NodeList.cons "ln" (Node.symlink "/x") NodeList.nil)

/-- Tree for the C9 witness: /src (with a file and a symlink) and an empty
    destination /dst. -/
def c9Root : Node :=
  Node.dir (NodeList.cons "src" (Node.dir c9SrcCs)
    (NodeList.cons "dst" (Node.dir NodeList.nil) NodeList.nil))

/-- Rename oracle for the C9 witness: moving /src to /dst/src crosses a
    device boundary. -/
def c9Rerr : List String → List String → Option RenameError :=
  fun s t => if s = ["src"] ∧ t = ["dst", "src"] then some RenameError.exdev else none

/-- Tree for the file-source half of the C9 witness: a plain file /f and an
    empty destination /dst. -/
def c9FileRoot : Node :=
  Node.dir (NodeList.cons "f" (Node.file ["data"])
    (NodeList.cons "dst" (Node.dir NodeList.nil) NodeList.nil))

/-- Rename oracle for the file-source half of the C9 witness. -/
def c9FileRerr : List String → List String → Option RenameError :=
  fun s t => if s = ["f"] ∧ t = ["dst", "f"] then some RenameError.exdev else none

/-- C9 witness: a cross-device move of the directory /src into /dst falls
    back to copy-then-delete with exactly the skip-symlink copy writes, and
    a cross-device move of the plain file /f copies exactly the file
    content. -/
theorem c9_witness :
    ((["src"] : List String).getLast? = some "src" ∧
     c9Root.lookup (["dst"] ++ ["src"]) = none ∧
     c9Root.lookup ["src"] = some (Node.dir c9SrcCs) ∧
     (Node.dir c9SrcCs).wf = true ∧
     c9Rerr ["src"] (["dst"] ++ ["src"]) = some RenameError.exdev ∧
     copy_single_entry c9Root ["src"] ["dst"]
       = Except.ok [WriteOp.mkDir ["dst", "src"], WriteOp.copyFile ["dst", "src", "a"] ["1"]]) ∧
    ((move_one c9Root c9Rerr ["src"] ["dst"]).2.2
       = [WriteOp.mkDir ["dst", "src"], WriteOp.copyFile ["dst", "src", "a"] ["1"]] ∧
     (∀ wop ∈ [WriteOp.mkDir ["dst", "src"], WriteOp.copyFile ["dst", "src", "a"] ["1"]],
        WriteFromSource (Node.dir c9SrcCs) (["dst"] ++ ["src"]) wop) ∧
     ((move_one c9Root c9Rerr ["src"] ["dst"]).1 = Except.ok () →
       (move_one c9Root c9Rerr ["src"] ["dst"]).2.1.lookup ["src"] = none)) ∧
    (c9FileRoot.lookup ["f"] = some (Node.file ["data"]) ∧
     (move_one c9FileRoot c9FileRerr ["f"] ["dst"]).2.2
       = [WriteOp.copyFile (["dst"] ++ ["f"]) ["data"]]) := by
  have hcse : copy_single_entry c9Root ["src"] ["dst"]
      = Except.ok [WriteOp.mkDir ["dst", "src"], WriteOp.copyFile ["dst", "src", "a"] ["1"]] := by
    simp [copy_single_entry, c9Root, c9SrcCs, copy_dir_iterative, copyLoop, copyChildren,
      Node.isLinkLike, Node.isDirNode, Node.nodeLines, Node.lookup, NodeList.findName,
      MAX_DIRECTORY_DEPTH]
  have happ := (c9_move_rename_then_exdev_fallback c9Root c9Rerr ["src"] ["dst"] "src"
    rfl (by decide) rfl).2.1 rfl
    [WriteOp.mkDir ["dst", "src"], WriteOp.copyFile ["dst", "src", "a"] ["1"]] hcse
  exact ⟨⟨rfl, rfl, rfl, by decide, rfl, hcse⟩,
    ⟨happ.1, happ.2.1 (Node.dir c9SrcCs) rfl (by decide), happ.2.2⟩,
    ⟨rfl, (c9_move_rename_then_exdev_fallback c9FileRoot c9FileRerr ["f"] ["dst"] "f"
      rfl (by decide) rfl).2.2.1 ["data"] rfl rfl⟩⟩

end FileManager
